import Mathlib

/-!
Verification development for the rootio_patcher repository.

The Go sources are shallowly embedded: JSON/XML decoding of input files is
abstracted (functions operate on the decoded structures), Go maps are
modelled as association lists (first binding wins on lookup, set replaces
in place or appends), file-system and subprocess side effects are modelled
as explicit effect traces, and injected interfaces (parser, API client,
pip service) are modelled as function-valued parameters.
-/

set_option maxRecDepth 100000

namespace RootioPatcher

/-!
String primitives. Core `String.splitOn`, `String.startsWith` and friends
do not reduce inside the kernel, so the Go string functions used by the
sources are implemented here over `List Char` (all structural recursion)
and wrapped back into `String`.
-/

/-- Character-list prefix test (pattern first). -/
def listStartsWith : List Char → List Char → Bool
  | [], _ => true
  | _ :: _, [] => false
  | p :: ps, c :: cs => p = c && listStartsWith ps cs

/-- Go strings.HasPrefix. -/
def strStartsWith (s pre : String) : Bool := listStartsWith pre.data s.data

/-- Go strings.HasSuffix. -/
def strEndsWith (s suf : String) : Bool :=
  listStartsWith suf.data.reverse s.data.reverse

/-- Drop the first n characters. -/
def strDrop (s : String) (n : Nat) : String := String.mk (s.data.drop n)

/-- Character count. -/
def strLen (s : String) : Nat := s.data.length

/-- Go strings.TrimSuffix: drop the suffix when present, otherwise unchanged. -/
def goTrimSuffix (s suf : String) : String :=
  if strEndsWith s suf then String.mk (s.data.take (strLen s - strLen suf)) else s

/-- Split off the part before the first occurrence of `sep` (non-empty in
every use) and the part after it; none when `sep` does not occur. -/
def breakAt (sep : List Char) : List Char → Option (List Char × List Char)
  | [] => none
  | c :: cs =>
    if listStartsWith sep (c :: cs) then some ([], (c :: cs).drop sep.length)
    else
      match breakAt sep cs with
      | some (pre, post) => some (c :: pre, post)
      | none => none

/-- Fuel-bounded split worker (each step consumes at least the separator,
so fuel = input length + 1 suffices). -/
def splitListAux (sep : List Char) : Nat → List Char → List (List Char)
  | 0, cs => [cs]
  | fuel + 1, cs =>
    match breakAt sep cs with
    | none => [cs]
    | some (pre, post) => pre :: splitListAux sep fuel post

/-- Go strings.Split for a non-empty separator (also the behavior of
Lean's String.splitOn on a non-empty separator): leftmost non-overlapping
splits, always at least one piece. -/
def goSplit (s sep : String) : List String :=
  (splitListAux sep.data (s.data.length + 1) s.data).map String.mk

/-- Join with a separator (String.intercalate). -/
def joinSep (sep : String) : List String → String
  | [] => ""
  | [x] => x
  | x :: xs => x ++ sep ++ joinSep sep xs

/-- Go strings.Replace(s, old, new, 1): replace the first occurrence only.
For a non-empty pattern this splits on the pattern and re-joins all but the
first separator; for the empty pattern Go inserts the replacement once at
the start. -/
def replaceFirst (s old new : String) : String :=
  if old = "" then new ++ s
  else
    match goSplit s old with
    | [] => s
    | [_] => s
    | x :: rest => x ++ new ++ joinSep old rest

/-- Lookup in a Go map modelled as an association list (key comparison on
String equality; the list has at most one binding per key when built by
`goMapSet`). -/
def goMapGet {α : Type} (m : List (String × α)) (k : String) : Option α :=
  match m with
  | [] => none
  | (k', v) :: rest => if k' = k then some v else goMapGet rest k

/-- Go map assignment m[k] = v: replace the existing binding in place, or
append a new one. -/
def goMapSet {α : Type} (m : List (String × α)) (k : String) (v : α) :
    List (String × α) :=
  match m with
  | [] => [(k, v)]
  | (k', v') :: rest =>
    if k' = k then (k, v) :: rest else (k', v') :: goMapSet rest k v

/-- Ecosystem enum (cmd/rootio_patcher/common/ecosystem.go). -/
inductive Ecosystem where
  | pypi
  | npm
  | maven
deriving DecidableEq, Repr

/-- common.PackageInfo: the normalized package entry produced by every parser. -/
structure PackageInfo where
  name : String
  version : String
  versionConstraint : String
  ecosystem : Ecosystem
  direct : Bool
  dev : Bool
deriving DecidableEq, Repr

/-- rootio.Package: the {name, version} pair sent to the analysis API. -/
structure Package where
  name : String
  version : String
deriving DecidableEq, Repr

/-- rootio.PatchInfo. -/
structure PatchInfo where
  name : String
  version : String
deriving DecidableEq, Repr

/-- rootio.PackagePatch. -/
structure PackagePatch where
  packageName : String
  version : String
  patch : PatchInfo
  patchAlias : PatchInfo
  cveIds : List String
deriving DecidableEq, Repr

/-- rootio.SkippedPackage. -/
structure SkippedPackage where
  packageName : String
  reason : String
deriving DecidableEq, Repr

/-- rootio.AnalyzePackagesResponse. -/
structure AnalyzeResponse where
  patches : List PackagePatch
  skipped : List SkippedPackage
deriving DecidableEq, Repr

/-- npm.PackageLockEntry (entry of the "packages" object of package-lock.json).
The dependency maps carry only what the Go struct decodes: name-to-constraint
string pairs. -/
structure PackageLockEntry where
  version : String := ""
  resolved : String := ""
  integrity : String := ""
  dev : Bool := false
  dependencies : List (String × String) := []
  devDependencies : List (String × String) := []
deriving DecidableEq, Repr

/-- npm.DependencyEntry (legacy "dependencies" section of package-lock.json). -/
structure DependencyEntry where
  version : String := ""
  resolved : String := ""
  dev : Bool := false
  requires : List (String × String) := []
deriving DecidableEq, Repr

/-- npm.PackageLockJSON, the decoded package-lock.json structure. -/
structure PackageLockJSON where
  name : String := ""
  version : String := ""
  lockfileVersion : Int := 0
  packages : List (String × PackageLockEntry) := []
  dependencies : List (String × DependencyEntry) := []
deriving DecidableEq, Repr

/-- npm.extractPackageName: extract the package name from a node_modules
path, taking the segment after the last "/node_modules/" occurrence. -/
def extractPackageName (pkgPath : String) : String :=
  if strStartsWith pkgPath "node_modules/" then
    let remainder := strDrop pkgPath (strLen "node_modules/")
    let parts := goSplit remainder "/node_modules/"
    if parts.length > 1 then parts.getLastD "" else remainder
  else pkgPath

/-- The dedup key built by npm Parse: fmt.Sprintf("%s@%s", name, version). -/
def lockKey (name version : String) : String := name ++ "@" ++ version

/-- The loop body of npm Parse over the "packages" object, threading the
`seen` dedup set (Go map[string]bool) and the direct/dev name sets taken
from the root entry. -/
def parsePackagesGo (dd ddd : List String) :
    List (String × PackageLockEntry) → List String → List PackageInfo
  | [], _ => []
  | (pkgPath, pkgData) :: rest, seen =>
    if pkgPath = "" then parsePackagesGo dd ddd rest seen
    else
      let name := extractPackageName pkgPath
      if name = "" then parsePackagesGo dd ddd rest seen
      else if pkgData.version = "" then parsePackagesGo dd ddd rest seen
      else
        let key := lockKey name pkgData.version
        if seen.contains key then parsePackagesGo dd ddd rest seen
        else
          { name := name
            version := pkgData.version
            versionConstraint := pkgData.version
            ecosystem := Ecosystem.npm
            direct := dd.contains name || ddd.contains name
            dev := ddd.contains name || pkgData.dev } ::
          parsePackagesGo dd ddd rest (key :: seen)

/-- npm NpmParser.Parse on a decoded package-lock.json structure (file
reading and JSON decoding abstracted; the yarn/pnpm branches return
not-implemented errors before reaching this point). -/
def NpmParser.parseLock (lf : PackageLockJSON) : List PackageInfo :=
  let rootPkg := goMapGet lf.packages ""
  let dd := match rootPkg with
    | some r => r.dependencies.map Prod.fst
    | none => []
  let ddd := match rootPkg with
    | some r => r.devDependencies.map Prod.fst
    | none => []
  parsePackagesGo dd ddd lf.packages []

/-- The loop body of npm NpmParser.Update for one lock entry: the root
entry is skipped; an entry whose extracted name is in the updates map gets
the new version, and its resolved URL (when present and the old version
non-empty) has the first occurrence of the old version replaced by the new
one. -/
def updateLockEntry (updates : List (String × String))
    (pe : String × PackageLockEntry) : String × PackageLockEntry :=
  if pe.1 = "" then pe
  else
    let name := extractPackageName pe.1
    match goMapGet updates name with
    | some newVersion =>
      let oldVersion := pe.2.version
      let pkgData := { pe.2 with version := newVersion }
      let pkgData :=
        if pkgData.resolved ≠ "" ∧ oldVersion ≠ "" then
          { pkgData with
            resolved := replaceFirst pkgData.resolved oldVersion newVersion }
        else pkgData
      (pe.1, pkgData)
    | none => pe

/-- The structural rewrite of npm NpmParser.Update: every entry of the
"packages" object is transformed by `updateLockEntry`; the rest of the
structure is untouched, and the Go function then re-serializes the whole
updated structure as indented JSON. -/
def NpmParser.updateLock (lf : PackageLockJSON) (updates : List (String × String)) :
    PackageLockJSON :=
  { lf with packages := lf.packages.map (updateLockEntry updates) }

/-- maven.Dependency (one `<dependency>` element of a pom.xml). -/
structure MvnDependency where
  groupId : String := ""
  artifactId : String := ""
  version : String := ""
  scope : String := ""
deriving DecidableEq, Repr

/-- maven.Project, the decoded pom.xml structure: `<properties>` children as
name/value pairs (the custom Properties unmarshaler) plus the dependency
list. -/
structure MvnProject where
  groupId : String := ""
  artifactId : String := ""
  version : String := ""
  properties : List (String × String) := []
  dependencies : List MvnDependency := []
deriving DecidableEq, Repr

/-- maven MavenParser.resolveProperty: resolve a `$\x7bname\x7d` reference
against the properties map, leaving the literal text when the value is not
a reference or the property is absent. -/
def MavenParser.resolveProperty (value : String)
    (properties : List (String × String)) : String :=
  if value = "" || !strStartsWith value "$\x7b" then value
  else
    let propName := goTrimSuffix (strDrop value 2) "\x7d"
    match goMapGet properties propName with
    | some resolved => resolved
    | none => value

/-- maven MavenParser.Parse on a decoded pom.xml structure (file reading and
XML decoding abstracted): dependencies with empty groupId/artifactId are
skipped, versions are property-resolved, empty resolved versions dropped,
name is groupId:artifactId, scope test marks dev, direct is always true. -/
def MavenParser.parseProject (project : MvnProject) : List PackageInfo :=
  project.dependencies.filterMap fun dep =>
    if dep.groupId = "" ∨ dep.artifactId = "" then none
    else
      let version := MavenParser.resolveProperty dep.version project.properties
      if version = "" then none
      else
        some { name := dep.groupId ++ ":" ++ dep.artifactId
               version := version
               versionConstraint := version
               ecosystem := Ecosystem.maven
               direct := true
               dev := decide (dep.scope = "test") }

/-- Match Go's regex `(<prop>)[^<]*(</[^>]*>)` at the head of `cs` (the
pattern is deterministic: both character classes exclude the character the
following literal starts with). On success returns the closing-tag interior
(capture group 2 without its `</`, `>` delimiters) and the rest of the
input after the match. -/
def tryPropMatch (openTag : List Char) (cs : List Char) :
    Option (List Char × List Char) :=
  if listStartsWith openTag cs then
    let r1 := cs.drop openTag.length
    let value := r1.takeWhile fun c => c ≠ '<'
    match r1.drop value.length with
    | '<' :: '/' :: r3 =>
      let mid := r3.takeWhile fun c => c ≠ '>'
      match r3.drop mid.length with
      | '>' :: r4 => some (mid, r4)
      | _ => none
    | _ => none
  else none

/-- Left-to-right non-overlapping replacement of every match of
`(<prop>)[^<]*(</[^>]*>)` by group1 ++ newV ++ group2 (Go
regexp.ReplaceAllString with the `$\x7b1\x7d...$\x7b2\x7d` template). The
fuel argument bounds the number of scan steps; each step consumes at least
one character, so fuel = input length suffices. -/
def replacePropAux (openTag newV : List Char) : Nat → List Char → List Char
  | 0, cs => cs
  | _ + 1, [] => []
  | fuel + 1, c :: cs =>
    match tryPropMatch openTag (c :: cs) with
    | some (mid, rest) =>
      openTag ++ newV ++ '<' :: '/' :: (mid ++ '>' :: replacePropAux openTag newV fuel rest)
    | none => c :: replacePropAux openTag newV fuel cs

/-- The `<properties>` value replacement of maven Update: pattern
`(<propName>)[^<]*(</[^>]*>)` with the property name quoted literally. -/
def replacePropAll (propName newVersion content : String) : String :=
  let openTag := ("<" ++ propName ++ ">").data
  String.mk (replacePropAux openTag newVersion.data content.data.length content.data)

/-- Go regexp `\s` character class: [\t\n\f\r ]. -/
def goIsSpace (c : Char) : Bool :=
  c = ' ' || c = '\t' || c = '\n' || c = '\r' || c = '\x0c'

/-- Match Go's regex
`(<dependency>\s*<groupId>G</groupId>\s*<artifactId>A</artifactId>\s*<version>)OLD(</version>)`
at the head of the input (deterministic: `\s*` runs are maximal and each
following literal starts with the non-space `<`). On success returns
capture group 1 (which keeps the matched whitespace verbatim) and the rest
of the input after the whole match. -/
def tryDepMatch (g a old : List Char) (cs : List Char) :
    Option (List Char × List Char) :=
  let lit1 := "<dependency>".data
  if listStartsWith lit1 cs then
    let r1 := cs.drop lit1.length
    let w1 := r1.takeWhile goIsSpace
    let r2 := r1.drop w1.length
    let lit2 := "<groupId>".data ++ g ++ "</groupId>".data
    if listStartsWith lit2 r2 then
      let r3 := r2.drop lit2.length
      let w2 := r3.takeWhile goIsSpace
      let r4 := r3.drop w2.length
      let lit3 := "<artifactId>".data ++ a ++ "</artifactId>".data
      if listStartsWith lit3 r4 then
        let r5 := r4.drop lit3.length
        let w3 := r5.takeWhile goIsSpace
        let r6 := r5.drop w3.length
        let lit4 := "<version>".data
        if listStartsWith lit4 r6 then
          let r7 := r6.drop lit4.length
          if listStartsWith old r7 then
            let r8 := r7.drop old.length
            let lit5 := "</version>".data
            if listStartsWith lit5 r8 then
              some (lit1 ++ w1 ++ lit2 ++ w2 ++ lit3 ++ w3 ++ lit4,
                    r8.drop lit5.length)
            else none
          else none
        else none
      else none
    else none
  else none

/-- Scan for the dependency-version pattern, replacing every match by
group1 ++ newV ++ `</version>` (fuel-bounded as in `replacePropAux`). -/
def replaceDepAux (g a old newV : List Char) : Nat → List Char → List Char
  | 0, cs => cs
  | _ + 1, [] => []
  | fuel + 1, c :: cs =>
    match tryDepMatch g a old (c :: cs) with
    | some (grp1, rest) =>
      grp1 ++ newV ++ "</version>".data ++ replaceDepAux g a old newV fuel rest
    | none => c :: replaceDepAux g a old newV fuel cs

/-- maven MavenParser.replaceDependencyVersion: regex replacement of the
version inside the specific dependency block anchored on the enclosing
groupId/artifactId/version sequence. -/
def MavenParser.replaceDependencyVersion
    (content groupID artifactID oldVersion newVersion : String) : String :=
  String.mk (replaceDepAux groupID.data artifactID.data oldVersion.data
    newVersion.data content.data.length content.data)

/-- maven MavenParser.Update on the raw file content paired with its decoded
structure (the Go function reads the file, decodes it, then rewrites the raw
text; decoding is abstracted as the `project` argument). Property-referenced
versions update the property value; literal versions update the dependency
block. -/
def MavenParser.update (content : String) (project : MvnProject)
    (updates : List (String × String)) : String :=
  project.dependencies.foldl
    (fun acc dep =>
      if dep.groupId = "" ∨ dep.artifactId = "" then acc
      else
        let name := dep.groupId ++ ":" ++ dep.artifactId
        match goMapGet updates name with
        | some newVersion =>
          let oldVersion := dep.version
          if strStartsWith oldVersion "$\x7b" then
            let propName := goTrimSuffix (strDrop oldVersion 2) "\x7d"
            match goMapGet project.properties propName with
            | some _ => replacePropAll propName newVersion acc
            | none => acc
          else
            MavenParser.replaceDependencyVersion acc dep.groupId dep.artifactId
              oldVersion newVersion
        | none => acc)
    content

/-- Substring test used to state properties of raw file content: the pattern
occurs in `s` iff splitting on it yields more than one piece (pattern
non-empty in every use below). -/
def containsStr (s pat : String) : Bool :=
  decide ((goSplit s pat).length > 1)

/-- A small JSON value AST used for the request body and for package.json
content (Go map ordering abstracted as association lists). -/
inductive Json where
  | null : Json
  | str : String → Json
  | num : Int → Json
  | bool : Bool → Json
  | arr : List Json → Json
  | obj : List (String × Json) → Json
deriving Repr, BEq

/-- Go map assignment on a JSON object's fields (association-list form of
`goMapSet`, kept separate because the value type is the nested Json). -/
def jsonObjSet (fields : List (String × Json)) (k : String) (v : Json) :
    List (String × Json) :=
  match fields with
  | [] => [(k, v)]
  | (k', v') :: rest =>
    if k' = k then (k, v) :: rest else (k', v') :: jsonObjSet rest k v

/-- The observable parts of the HTTP request built by rootio
Client.AnalyzePackages. -/
structure HttpRequest where
  method : String
  url : String
  contentType : String
  basicAuthUser : String
  basicAuthPass : String
  body : Json
deriving Repr

/-- json.Marshal of rootio.AnalyzePackagesRequest under its struct tags:
\x7bpackages: [\x7bname, version\x7d]\x7d. -/
def marshalAnalyzeRequest (packages : List Package) : Json :=
  Json.obj [("packages", Json.arr (packages.map fun p =>
    Json.obj [("name", Json.str p.name), ("version", Json.str p.version)]))]

/-- rootio Client.AnalyzePackages request construction: the URL is
fmt.Sprintf("%s/v3/remediate/pypi", baseURL) for every caller, the JSON
body is the marshalled package list, and SetBasicAuth uses the API key as
username with an empty password. -/
def Client.analyzeRequest (baseURL apiKey : String) (packages : List Package) :
    HttpRequest :=
  { method := "POST"
    url := baseURL ++ "/v3/remediate/pypi"
    contentType := "application/json"
    basicAuthUser := apiKey
    basicAuthPass := ""
    body := marshalAnalyzeRequest packages }

/-- The ecosystem name as it appears in the spec's
`/v3/remediate/\x7becosystem\x7d` path. -/
def ecosystemPathSegment : Ecosystem → String
  | Ecosystem.pypi => "pypi"
  | Ecosystem.npm => "npm"
  | Ecosystem.maven => "maven"

/-- Final path segment of a URL. -/
def lastPathSegment (url : String) : String := (goSplit url "/").getLastD ""

/-- common.InstalledPackage. -/
structure InstalledPackage where
  name : String
  version : String
  location : String := ""
deriving DecidableEq, Repr

/-- The conversion to SDK format shared by all three Run methods. -/
def toSdkPackages (packages : List PackageInfo) : List Package :=
  packages.map fun pkg => { name := pkg.name, version := pkg.version }

/-- ASCII lower-casing on character codes. -/
def asciiLowerNat (c : Char) : Nat :=
  if 65 ≤ c.toNat ∧ c.toNat ≤ 90 then c.toNat + 32 else c.toNat

/-- Go strings.EqualFold, modelled as ASCII-case-insensitive comparison
(adequate for the names compared against "pip" here; Unicode simple
folding beyond ASCII is not modelled). -/
def eqFold (a b : String) : Bool :=
  a.data.map asciiLowerNat = b.data.map asciiLowerNat

/-- A call made by pip App.applyPatches into the pip Service. -/
inductive PipCall where
  | applyPatch (packageName : String)
  | applyPatchForPip (packageName : String)
deriving DecidableEq, Repr

/-- Injected pip Service behavior: each apply call either succeeds (none)
or fails with an error message (some msg). -/
structure PipSvcBehavior where
  applyPatchRes : PackagePatch → Option String
  applyPatchForPipRes : PackagePatch → Option String

/-- The call pip App.applyPatches makes for one patch: packages named "pip"
(case-insensitively) route to ApplyPatchForPip, everything else to
ApplyPatch. -/
def routedCall (patch : PackagePatch) : PipCall :=
  if eqFold patch.packageName "pip" then PipCall.applyPatchForPip patch.packageName
  else PipCall.applyPatch patch.packageName

/-- The outcome of the routed call under an injected service behavior. -/
def routedRes (svc : PipSvcBehavior) (patch : PackagePatch) : Option String :=
  if eqFold patch.packageName "pip" then svc.applyPatchForPipRes patch
  else svc.applyPatchRes patch

/-- A decimal digit character. -/
def digitChar : Nat → Char
  | 0 => '0' | 1 => '1' | 2 => '2' | 3 => '3' | 4 => '4'
  | 5 => '5' | 6 => '6' | 7 => '7' | 8 => '8' | 9 => '9'
  | _ => '*'

/-- Fuel-bounded decimal digit list of a natural number. -/
def natDigits : Nat → Nat → List Char
  | 0, _ => []
  | fuel + 1, n =>
    if n < 10 then [digitChar n]
    else natDigits fuel (n / 10) ++ [digitChar (n % 10)]

/-- Decimal rendering of a natural number (fmt's %d). -/
def natToStr (n : Nat) : String := String.mk (natDigits (n + 1) n)

/-- The progress line printed for patch i (0-based) of total. -/
def pipProgressLine (i total : Nat) (patch : PackagePatch) (useAlias : Bool) :
    String :=
  let patchVersion := if useAlias then patch.patchAlias.version else patch.patch.version
  "[" ++ natToStr (i + 1) ++ "/" ++ natToStr total ++ "] Patching " ++
    patch.packageName ++ " (" ++ patch.version ++ " → " ++ patchVersion ++ ")..."

/-- pip App.applyPatches: sequential apply, first failure aborts. Returns
the service calls made, the lines printed, and the result. -/
def pipApplyAux (svc : PipSvcBehavior) (useAlias : Bool) (total : Nat) :
    Nat → List PackagePatch → List PipCall × List String × Except String Unit
  | _, [] => ([], [], Except.ok ())
  | i, patch :: rest =>
    let line := pipProgressLine i total patch useAlias
    match routedRes svc patch with
    | some msg =>
      ([routedCall patch], [line, "✗ Patch failed: " ++ msg],
        Except.error ("patch failed: " ++ msg))
    | none =>
      let (cs, ls, r) := pipApplyAux svc useAlias total (i + 1) rest
      (routedCall patch :: cs,
        line :: ("  ✓ Successfully patched " ++ patch.packageName) :: ls, r)

/-- pip App.applyPatches entry point. -/
def pipApplyPatches (svc : PipSvcBehavior) (useAlias : Bool)
    (patches : List PackagePatch) : List PipCall × List String × Except String Unit :=
  pipApplyAux svc useAlias patches.length 0 patches

/-- Outcome of one pip App.Run: the service calls made, whether the dry-run
reporter was invoked, and the result. -/
structure PipRunOut where
  calls : List PipCall
  reported : Bool
  result : Except String Unit
deriving Repr

/-- pip App.Run: collect installed packages (injected outcome), analyze
(injected API), then report (dry-run) or apply. -/
def pipRun (svc : PipSvcBehavior)
    (listRes : Except String (List InstalledPackage))
    (api : List Package → Except String AnalyzeResponse)
    (dryRun useAlias : Bool) : PipRunOut :=
  match listRes with
  | Except.error e =>
    { calls := [], reported := false
      result := Except.error ("failed to collect packages: " ++ e) }
  | Except.ok packages =>
    let sdkPackages := packages.map fun pkg =>
      ({ name := pkg.name, version := pkg.version } : Package)
    match api sdkPackages with
    | Except.error e =>
      { calls := [], reported := false
        result := Except.error ("failed to analyze packages: " ++ e) }
    | Except.ok response =>
      if response.patches.length = 0 then
        { calls := [], reported := false, result := Except.ok () }
      else if dryRun then
        { calls := [], reported := true, result := Except.ok () }
      else
        let (calls, _, r) := pipApplyPatches svc useAlias response.patches
        { calls := calls, reported := false, result := r }

/-- An observable effect of one npm App run: parser-interface calls, writes
of package.json content, and the dry-run report. -/
inductive NpmEffect where
  | parseCall (path : String)
  | updateCall (path : String)
  | validateCall (content : String)
  | writeJson (path : String) (content : Json)
  | report
deriving BEq

/-- npm App.getOverrideField. -/
def getOverrideField (packageManager : String) : String :=
  if packageManager = "yarn" then "resolutions"
  else if packageManager = "npm" ∨ packageManager = "pnpm" then "overrides"
  else "overrides"

/-- npm App.applyPatches override-map construction: original package name
maps to npm:<aliasName>@<aliasVersion>. -/
def buildOverrides (patches : List PackagePatch) : List (String × String) :=
  patches.foldl
    (fun m patch =>
      goMapSet m patch.packageName
        ("npm:" ++ patch.patchAlias.name ++ "@" ++ patch.patchAlias.version))
    []

/-- The field insertion performed by npm App.updatePackageJSON: pnpm nests
the overrides under the "pnpm" object (reusing an existing pnpm object
value, or a fresh one when the field is absent or not an object); npm and
yarn set the top-level override field. -/
def npmInsertOverrides (packageManager : String)
    (pkgJSON : List (String × Json)) (overrides : List (String × String)) :
    List (String × Json) :=
  let overridesJson := Json.obj (overrides.map fun kv => (kv.1, Json.str kv.2))
  if packageManager = "pnpm" then
    let pnpmConfig := match goMapGet pkgJSON "pnpm" with
      | some (Json.obj m) => m
      | _ => []
    jsonObjSet pkgJSON "pnpm"
      (Json.obj (jsonObjSet pnpmConfig "overrides" overridesJson))
  else
    jsonObjSet pkgJSON (getOverrideField packageManager) overridesJson

/-- npm App.updatePackageJSON: check package.json exists, read and decode it
(injected outcome), insert the override field for the package manager
(pnpm nests under "pnpm".overrides, reusing an existing pnpm object), then
write package.json back. -/
def npmUpdatePackageJSON (packageManager : String)
    (overrides : List (String × String)) (pkgJsonExists : Bool)
    (readRes : Except String (List (String × Json))) :
    List NpmEffect × Except String Unit :=
  if !pkgJsonExists then
    ([], Except.error "package.json not found in current directory")
  else
    match readRes with
    | Except.error e => ([], Except.error ("failed to parse package.json: " ++ e))
    | Except.ok pkgJSON =>
      ([NpmEffect.writeJson "package.json"
          (Json.obj (npmInsertOverrides packageManager pkgJSON overrides))],
        Except.ok ())

/-- npm App.applyPatches: build the overrides map and update package.json. -/
def npmApplyPatches (packageManager : String) (patches : List PackagePatch)
    (pkgJsonExists : Bool) (readRes : Except String (List (String × Json))) :
    List NpmEffect × Except String Unit :=
  let overrides := buildOverrides patches
  let (effs, r) := npmUpdatePackageJSON packageManager overrides pkgJsonExists readRes
  (effs,
    match r with
    | Except.error e => Except.error ("failed to update package.json: " ++ e)
    | Except.ok _ => Except.ok ())

/-- npm App.Run: stat the lock file, parse it (injected outcome), analyze
(injected API), then report (dry-run) or apply by rewriting package.json.
The parser's Update and Validate are never called on this path. -/
def npmRun (packageManager lockFilePath : String) (lockExists : Bool)
    (parseRes : Except String (List PackageInfo))
    (api : List Package → Except String AnalyzeResponse) (dryRun : Bool)
    (pkgJsonExists : Bool) (readRes : Except String (List (String × Json))) :
    List NpmEffect × Except String Unit :=
  if !lockExists then
    ([], Except.error ("lock file not found: " ++ lockFilePath))
  else
    match parseRes with
    | Except.error e =>
      ([NpmEffect.parseCall lockFilePath],
        Except.error ("failed to parse " ++ lockFilePath ++ ": " ++ e))
    | Except.ok packages =>
      if packages.length = 0 then
        ([NpmEffect.parseCall lockFilePath], Except.ok ())
      else
        match api (toSdkPackages packages) with
        | Except.error e =>
          ([NpmEffect.parseCall lockFilePath],
            Except.error ("failed to analyze packages: " ++ e))
        | Except.ok response =>
          if response.patches.length = 0 then
            ([NpmEffect.parseCall lockFilePath], Except.ok ())
          else if dryRun then
            ([NpmEffect.parseCall lockFilePath, NpmEffect.report], Except.ok ())
          else
            let (effs, r) :=
              npmApplyPatches packageManager response.patches pkgJsonExists readRes
            (NpmEffect.parseCall lockFilePath :: effs, r)

/-- An observable effect of one maven App run. -/
inductive MvnEffect where
  | parseCall (path : String)
  | updateCall (path : String)
  | validateCall (content : String)
  | write (path : String) (content : String)
  | report
deriving DecidableEq, Repr

/-- The updates map maven App.applyPatches builds: package name to patched
version (same-name patch, not the alias). -/
def mavenUpdatesOf (patches : List PackagePatch) : List (String × String) :=
  patches.foldl (fun m patch => goMapSet m patch.packageName patch.patch.version) []

/-- maven App.applyPatches: build the updates map (package name to patched
version), call the injected parser's Update, validate the produced content,
and only then write the file. -/
def mavenApplyPatches (filePath : String) (patches : List PackagePatch)
    (parserUpdate : List (String × String) → Except String String)
    (parserValidate : String → Bool) : List MvnEffect × Except String Unit :=
  match parserUpdate (mavenUpdatesOf patches) with
  | Except.error e =>
    ([MvnEffect.updateCall filePath],
      Except.error ("failed to update file: " ++ e))
  | Except.ok updatedContent =>
    if !parserValidate updatedContent then
      ([MvnEffect.updateCall filePath, MvnEffect.validateCall updatedContent],
        Except.error "updated file content is invalid")
    else
      ([MvnEffect.updateCall filePath, MvnEffect.validateCall updatedContent,
        MvnEffect.write filePath updatedContent], Except.ok ())

/-- maven App.Run: stat the pom, parse it (injected outcome), analyze
(injected API), then report (dry-run) or apply via Update/Validate/write. -/
def mavenRun (filePath : String) (fileExists : Bool)
    (parseRes : Except String (List PackageInfo))
    (api : List Package → Except String AnalyzeResponse) (dryRun : Bool)
    (parserUpdate : List (String × String) → Except String String)
    (parserValidate : String → Bool) : List MvnEffect × Except String Unit :=
  if !fileExists then
    ([], Except.error ("file not found: " ++ filePath))
  else
    match parseRes with
    | Except.error e =>
      ([MvnEffect.parseCall filePath],
        Except.error ("failed to parse " ++ filePath ++ ": " ++ e))
    | Except.ok packages =>
      if packages.length = 0 then
        ([MvnEffect.parseCall filePath], Except.ok ())
      else
        match api (toSdkPackages packages) with
        | Except.error e =>
          ([MvnEffect.parseCall filePath],
            Except.error ("failed to analyze packages: " ++ e))
        | Except.ok response =>
          if response.patches.length = 0 then
            ([MvnEffect.parseCall filePath], Except.ok ())
          else if dryRun then
            ([MvnEffect.parseCall filePath, MvnEffect.report], Except.ok ())
          else
            let (effs, r) :=
              mavenApplyPatches filePath response.patches parserUpdate parserValidate
            (MvnEffect.parseCall filePath :: effs, r)

/-- Apply-side effects of the npm App: file writes and parser
Update/Validate calls. -/
def npmIsApplySide : NpmEffect → Bool
  | NpmEffect.writeJson _ _ => true
  | NpmEffect.updateCall _ => true
  | NpmEffect.validateCall _ => true
  | _ => false

/-- File writes of the npm App. -/
def npmIsWrite : NpmEffect → Bool
  | NpmEffect.writeJson _ _ => true
  | _ => false

/-- Parser Validate calls of the npm App. -/
def npmIsValidate : NpmEffect → Bool
  | NpmEffect.validateCall _ => true
  | _ => false

/-- Apply-side effects of the maven App: file writes and parser
Update/Validate calls. -/
def mvnIsApplySide : MvnEffect → Bool
  | MvnEffect.write _ _ => true
  | MvnEffect.updateCall _ => true
  | MvnEffect.validateCall _ => true
  | _ => false

/-- The pom.xml content of the property-indirection scenario: the property
log4j.version holds 2.17.0 and the dependency group:artifact refers to it
as `$\x7blog4j.version\x7d`. -/
def pomPropContent : String :=
  "<?xml version=\"1.0\"?>\n<project>\n  <properties>\n    <log4j.version>2.17.0</log4j.version>\n  </properties>\n  <dependencies>\n    <dependency>\n      <groupId>group</groupId>\n      <artifactId>artifact</artifactId>\n      <version>$\x7blog4j.version\x7d</version>\n    </dependency>\n  </dependencies>\n</project>\n"

/-- The decoded structure of `pomPropContent`. -/
def pomPropProject : MvnProject :=
  { properties := [("log4j.version", "2.17.0")]
    dependencies := [{ groupId := "group", artifactId := "artifact",
                       version := "$\x7blog4j.version\x7d" }] }

/-- `pomPropContent` with only the property value changed to 2.17.1. -/
def pomPropContentUpdated : String :=
  "<?xml version=\"1.0\"?>\n<project>\n  <properties>\n    <log4j.version>2.17.1</log4j.version>\n  </properties>\n  <dependencies>\n    <dependency>\n      <groupId>group</groupId>\n      <artifactId>artifact</artifactId>\n      <version>$\x7blog4j.version\x7d</version>\n    </dependency>\n  </dependencies>\n</project>\n"

/-- C7: on a pom.xml whose dependency version is the property reference
`$\x7blog4j.version\x7d` with property value 2.17.0, Parse resolves the
dependency's version to "2.17.0", and Update with
\x7b"group:artifact": "2.17.1"\x7d rewrites only the property value: the
output contains `<log4j.version>2.17.1</log4j.version>`, still contains the
dependency's literal `$\x7blog4j.version\x7d` text, and is exactly the
input with the single property value changed. -/
theorem maven_property_update_resolves_and_rewrites_property_only :
    MavenParser.parseProject pomPropProject =
      [{ name := "group:artifact", version := "2.17.0",
         versionConstraint := "2.17.0", ecosystem := Ecosystem.maven,
         direct := true, dev := false }] ∧
    MavenParser.update pomPropContent pomPropProject
      [("group:artifact", "2.17.1")] = pomPropContentUpdated ∧
    containsStr pomPropContentUpdated "<log4j.version>2.17.1</log4j.version>" = true ∧
    containsStr pomPropContentUpdated ("$\x7blog4j.version\x7d</version>") = true := by
  refine ⟨by decide, by decide, by decide, by decide⟩

/-- C4 counterexample: the analysis request URL is built by
fmt.Sprintf("%s/v3/remediate/pypi", baseURL) for every ecosystem, so its
final path segment is "pypi" and not the ecosystem being remediated when
that ecosystem is npm (or maven). -/
theorem analyze_request_path_not_ecosystem_specific :
    lastPathSegment (Client.analyzeRequest "https://api.root.io" "key" []).url
      = "pypi" ∧
    lastPathSegment (Client.analyzeRequest "https://api.root.io" "key" []).url
      ≠ ecosystemPathSegment Ecosystem.npm ∧
    lastPathSegment (Client.analyzeRequest "https://api.root.io" "key" []).url
      ≠ ecosystemPathSegment Ecosystem.maven := by
  refine ⟨by decide, by decide, by decide⟩

/-- C4 amended: the vulnerability-analysis request is sent as POST
\x7bbaseURL\x7d/v3/remediate/pypi for every caller (the path segment is the
fixed string "pypi" regardless of the ecosystem being remediated), with
JSON body \x7bpackages: [\x7bname, version\x7d]\x7d and HTTP Basic Auth
using the API key as username and an empty password. -/
theorem analyze_request_shape (baseURL apiKey : String)
    (packages : List Package) :
    (Client.analyzeRequest baseURL apiKey packages).method = "POST" ∧
    (Client.analyzeRequest baseURL apiKey packages).url
      = baseURL ++ "/v3/remediate/pypi" ∧
    (Client.analyzeRequest baseURL apiKey packages).basicAuthUser = apiKey ∧
    (Client.analyzeRequest baseURL apiKey packages).basicAuthPass = "" ∧
    (Client.analyzeRequest baseURL apiKey packages).body
      = Json.obj [("packages", Json.arr (packages.map fun p =>
          Json.obj [("name", Json.str p.name), ("version", Json.str p.version)]))] := by
  exact ⟨rfl, rfl, rfl, rfl, rfl⟩

/-- C1: with dryRun = true no mutation happens in any ecosystem app: the pip
App makes no service calls, and the npm and maven Apps produce no
apply-side effect (no file write, no parser Update or Validate call) — for
every injected parse result, analysis result (hence any patch list) and
service behavior. When the inputs succeed and the patch list is non-empty,
the run just reports the patches and returns success. -/
theorem dry_run_performs_no_mutation :
    (∀ svc listRes api useAlias,
      (pipRun svc listRes api true useAlias).calls = []) ∧
    (∀ svc packages p ps sk useAlias,
      pipRun svc (Except.ok packages)
        (fun _ => Except.ok { patches := p :: ps, skipped := sk }) true useAlias
        = { calls := [], reported := true, result := Except.ok () }) ∧
    (∀ pm path lockExists parseRes api pkgJsonExists readRes,
      (npmRun pm path lockExists parseRes api true pkgJsonExists readRes).1.filter
        npmIsApplySide = []) ∧
    (∀ pm path q qs p ps sk pkgJsonExists readRes,
      npmRun pm path true (Except.ok (q :: qs))
        (fun _ => Except.ok { patches := p :: ps, skipped := sk }) true
        pkgJsonExists readRes
        = ([NpmEffect.parseCall path, NpmEffect.report], Except.ok ())) ∧
    (∀ path fileExists parseRes api parserUpdate parserValidate,
      (mavenRun path fileExists parseRes api true parserUpdate
        parserValidate).1.filter mvnIsApplySide = []) ∧
    (∀ path q qs p ps sk parserUpdate parserValidate,
      mavenRun path true (Except.ok (q :: qs))
        (fun _ => Except.ok { patches := p :: ps, skipped := sk }) true
        parserUpdate parserValidate
        = ([MvnEffect.parseCall path, MvnEffect.report], Except.ok ())) := by
  refine ⟨?_, ?_, ?_, ?_, ?_, ?_⟩
  · intro svc listRes api useAlias
    cases listRes with
    | error e => rfl
    | ok packages =>
      simp only [pipRun]
      cases api (packages.map fun pkg => ({ name := pkg.name, version := pkg.version } : Package)) with
      | error e => rfl
      | ok response => by_cases h : response.patches.length = 0 <;> simp [h]
  · intro svc packages p ps sk useAlias
    simp [pipRun]
  · intro pm path lockExists parseRes api pkgJsonExists readRes
    cases lockExists with
    | false => rfl
    | true =>
      cases parseRes with
      | error e => rfl
      | ok packages =>
        simp only [npmRun]
        by_cases h0 : packages.length = 0
        · simp [h0, npmIsApplySide, List.filter]
        · simp only [h0, if_false, Bool.not_true]
          cases api (toSdkPackages packages) with
          | error e => rfl
          | ok response =>
            by_cases h : response.patches.length = 0 <;>
              simp [h, npmIsApplySide, List.filter]
  · intro pm path q qs p ps sk pkgJsonExists readRes
    simp [npmRun, toSdkPackages]
  · intro path fileExists parseRes api parserUpdate parserValidate
    cases fileExists with
    | false => rfl
    | true =>
      cases parseRes with
      | error e => rfl
      | ok packages =>
        simp only [mavenRun]
        by_cases h0 : packages.length = 0
        · simp [h0, mvnIsApplySide, List.filter]
        · simp only [h0, if_false, Bool.not_true]
          cases api (toSdkPackages packages) with
          | error e => rfl
          | ok response =>
            by_cases h : response.patches.length = 0 <;>
              simp [h, mvnIsApplySide, List.filter]
  · intro path q qs p ps sk parserUpdate parserValidate
    simp [mavenRun, toSdkPackages]

/-- C2 counterexample: the npm apply path persists content without any
syntactic validation. On a concrete non-dry-run npm run with one patch, the
effect trace contains exactly one file write and no Validate call at all
(and no Update call), so the written package.json content was never
validated before being persisted. -/
theorem npm_apply_writes_without_validation :
    ((npmRun "npm" "package-lock.json" true
        (Except.ok [{ name := "lodash", version := "4.17.20",
                      versionConstraint := "4.17.20",
                      ecosystem := Ecosystem.npm, direct := true, dev := false }])
        (fun _ => Except.ok
          { patches := [{ packageName := "lodash", version := "4.17.20",
                          patch := { name := "lodash", version := "4.17.21" },
                          patchAlias := { name := "@rootio/lodash", version := "4.17.21" },
                          cveIds := ["CVE-2021-23337"] }]
            skipped := [] })
        false true (Except.ok [])).1.filter npmIsWrite).length = 1 ∧
    ((npmRun "npm" "package-lock.json" true
        (Except.ok [{ name := "lodash", version := "4.17.20",
                      versionConstraint := "4.17.20",
                      ecosystem := Ecosystem.npm, direct := true, dev := false }])
        (fun _ => Except.ok
          { patches := [{ packageName := "lodash", version := "4.17.20",
                          patch := { name := "lodash", version := "4.17.21" },
                          patchAlias := { name := "@rootio/lodash", version := "4.17.21" },
                          cveIds := ["CVE-2021-23337"] }]
            skipped := [] })
        false true (Except.ok [])).1.filter npmIsValidate) = [] := by
  constructor
  · rfl
  · rfl

/-- C2 amended (the Maven apply path only): maven App.applyPatches validates
the newly built content before persisting it — when Validate rejects the
content the run aborts with an error and no write effect is produced (the
original file is untouched), and any write that does occur carries exactly
the Update output, appears after its Validate call in the trace, and only
happens when Validate accepted it. -/
theorem maven_validate_before_write (filePath : String)
    (patches : List PackagePatch)
    (parserUpdate : List (String × String) → Except String String)
    (parserValidate : String → Bool) :
    (∀ c, parserUpdate (mavenUpdatesOf patches) = Except.ok c →
      parserValidate c = false →
      mavenApplyPatches filePath patches parserUpdate parserValidate
        = ([MvnEffect.updateCall filePath, MvnEffect.validateCall c],
           Except.error "updated file content is invalid")) ∧
    (∀ p c,
      MvnEffect.write p c ∈
        (mavenApplyPatches filePath patches parserUpdate parserValidate).1 →
      p = filePath ∧ parserUpdate (mavenUpdatesOf patches) = Except.ok c ∧
      parserValidate c = true ∧
      (mavenApplyPatches filePath patches parserUpdate parserValidate).1
        = [MvnEffect.updateCall filePath, MvnEffect.validateCall c,
           MvnEffect.write filePath c]) := by
  constructor
  · intro c hu hv
    simp [mavenApplyPatches, hu, hv]
  · intro p c hmem
    cases hu : parserUpdate (mavenUpdatesOf patches) with
    | error e =>
      simp [mavenApplyPatches, hu] at hmem
    | ok updatedContent =>
      by_cases hv : parserValidate updatedContent = true
      · have htr : (mavenApplyPatches filePath patches parserUpdate parserValidate).1
            = [MvnEffect.updateCall filePath, MvnEffect.validateCall updatedContent,
               MvnEffect.write filePath updatedContent] := by
          simp [mavenApplyPatches, hu, hv]
        rw [htr] at hmem
        simp only [List.mem_cons, List.not_mem_nil, or_false] at hmem
        rcases hmem with h | h | h
        · exact absurd h (by simp)
        · exact absurd h (by simp)
        · obtain ⟨hp, hc⟩ := MvnEffect.write.inj h
          subst hp; subst hc
          exact ⟨rfl, rfl, hv, htr⟩
      · have hv' : parserValidate updatedContent = false := by
          simpa using hv
        simp [mavenApplyPatches, hu, hv'] at hmem

/-- Witness for `maven_validate_before_write`: a concrete parser whose
Validate always rejects makes a concrete apply run abort with the
validation error and produce no write effect. -/
theorem maven_validate_before_write_witness :
    mavenApplyPatches "pom.xml" []
        (fun _ => Except.ok "<project></project>") (fun _ => false)
      = ([MvnEffect.updateCall "pom.xml",
          MvnEffect.validateCall "<project></project>"],
         Except.error "updated file content is invalid") :=
  (maven_validate_before_write "pom.xml" []
    (fun _ => Except.ok "<project></project>") (fun _ => false)).1
    "<project></project>" rfl rfl

/-- Every entry emitted by the npm parse loop has a non-empty name and
version, and its dedup key was not in the seen set the loop started with. -/
theorem mem_parsePackagesGo {dd ddd : List String} {pi : PackageInfo} :
    ∀ {pkgs : List (String × PackageLockEntry)} {seen : List String},
    pi ∈ parsePackagesGo dd ddd pkgs seen →
    pi.name ≠ "" ∧ pi.version ≠ "" ∧
      seen.contains (lockKey pi.name pi.version) = false := by
  intro pkgs
  induction pkgs with
  | nil => intro seen h; simp [parsePackagesGo] at h
  | cons pe rest ih =>
    intro seen h
    obtain ⟨pkgPath, pkgData⟩ := pe
    simp only [parsePackagesGo] at h
    by_cases h1 : pkgPath = ""
    · rw [if_pos h1] at h; exact ih h
    · rw [if_neg h1] at h
      by_cases h2 : extractPackageName pkgPath = ""
      · rw [if_pos h2] at h; exact ih h
      · rw [if_neg h2] at h
        by_cases h3 : pkgData.version = ""
        · rw [if_pos h3] at h; exact ih h
        · rw [if_neg h3] at h
          by_cases h4 : seen.contains (lockKey (extractPackageName pkgPath) pkgData.version) = true
          · rw [if_pos h4] at h; exact ih h
          · rw [if_neg h4] at h
            rcases List.mem_cons.mp h with hpi | hpi
            · subst hpi
              refine ⟨h2, h3, ?_⟩
              simpa using h4
            · have := ih hpi
              refine ⟨this.1, this.2.1, ?_⟩
              have hc := this.2.2
              simp only [List.contains_cons, Bool.or_eq_false_iff] at hc
              exact hc.2

/-- The npm parse loop never emits two entries with the same dedup key. -/
theorem parsePackagesGo_pairwise_keys (dd ddd : List String) :
    ∀ (pkgs : List (String × PackageLockEntry)) (seen : List String),
    (parsePackagesGo dd ddd pkgs seen).Pairwise
      (fun a b => lockKey a.name a.version ≠ lockKey b.name b.version) := by
  intro pkgs
  induction pkgs with
  | nil => intro seen; simp [parsePackagesGo]
  | cons pe rest ih =>
    intro seen
    obtain ⟨pkgPath, pkgData⟩ := pe
    simp only [parsePackagesGo]
    by_cases h1 : pkgPath = ""
    · rw [if_pos h1]; exact ih seen
    · rw [if_neg h1]
      by_cases h2 : extractPackageName pkgPath = ""
      · rw [if_pos h2]; exact ih seen
      · rw [if_neg h2]
        by_cases h3 : pkgData.version = ""
        · rw [if_pos h3]; exact ih seen
        · rw [if_neg h3]
          by_cases h4 : seen.contains (lockKey (extractPackageName pkgPath) pkgData.version) = true
          · rw [if_pos h4]; exact ih seen
          · rw [if_neg h4]
            refine List.Pairwise.cons ?_ (ih _)
            intro b hb
            have hmem := mem_parsePackagesGo hb
            have hc := hmem.2.2
            simp only [List.contains_cons, Bool.or_eq_false_iff, beq_eq_false_iff_ne] at hc
            exact hc.1.symm

/-- C3 amended: every entry returned by npm Parse and by Maven Parse has a
non-empty name and non-empty version; within one parse the npm lock parser
de-duplicates by (name, version) pair, while the Maven parser performs no
de-duplication (see the counterexample). -/
theorem parse_entry_invariant (lf : PackageLockJSON) (project : MvnProject) :
    (∀ pi ∈ NpmParser.parseLock lf, pi.name ≠ "" ∧ pi.version ≠ "") ∧
    (NpmParser.parseLock lf).Pairwise
      (fun a b => ¬(a.name = b.name ∧ a.version = b.version)) ∧
    (∀ pi ∈ MavenParser.parseProject project, pi.name ≠ "" ∧ pi.version ≠ "") := by
  refine ⟨?_, ?_, ?_⟩
  · intro pi hpi
    simp only [NpmParser.parseLock] at hpi
    exact ⟨(mem_parsePackagesGo hpi).1, (mem_parsePackagesGo hpi).2.1⟩
  · simp only [NpmParser.parseLock]
    exact (parsePackagesGo_pairwise_keys _ _ lf.packages []).imp
      (fun hk hab => hk (by rw [hab.1, hab.2]))
  · intro pi hpi
    simp only [MavenParser.parseProject, List.mem_filterMap] at hpi
    obtain ⟨dep, _, hdep⟩ := hpi
    by_cases hga : dep.groupId = "" ∨ dep.artifactId = ""
    · rw [if_pos hga] at hdep; exact absurd hdep (by simp)
    · rw [if_neg hga] at hdep
      by_cases hv : MavenParser.resolveProperty dep.version project.properties = ""
      · rw [if_pos hv] at hdep; exact absurd hdep (by simp)
      · rw [if_neg hv] at hdep
        have hpi' := Option.some.inj hdep
        subst hpi'
        refine ⟨?_, hv⟩
        intro hname
        have hname' : dep.groupId ++ ":" ++ dep.artifactId = "" := hname
        have hcolon : (":" : String).data = [':'] := rfl
        have hlen := congrArg (fun s : String => s.data.length) hname'
        simp [String.data_append, hcolon] at hlen

/-- Witness for `parse_entry_invariant` at a concrete lock file and pom:
the concrete parse outputs satisfy the invariant. -/
theorem parse_entry_invariant_witness :
    (let lf : PackageLockJSON :=
      { packages := [("", { dependencies := [("lodash", "^4.17.20")] }),
                     ("node_modules/lodash", { version := "4.17.20" })] }
     let project : MvnProject :=
      { dependencies := [{ groupId := "junit", artifactId := "junit",
                           version := "4.12" }] }
     (∀ pi ∈ NpmParser.parseLock lf, pi.name ≠ "" ∧ pi.version ≠ "") ∧
     (NpmParser.parseLock lf).Pairwise
       (fun a b => ¬(a.name = b.name ∧ a.version = b.version)) ∧
     (∀ pi ∈ MavenParser.parseProject project, pi.name ≠ "" ∧ pi.version ≠ "")) :=
  parse_entry_invariant _ _

/-- C3 counterexample: the Maven parser does not de-duplicate — a pom.xml
that declares the same dependency twice yields the same (name, version)
entry twice in one Parse result. -/
theorem maven_parse_emits_duplicate_pairs :
    MavenParser.parseProject
      { dependencies := [{ groupId := "g", artifactId := "a", version := "1.0" },
                         { groupId := "g", artifactId := "a", version := "1.0" }] }
      = [{ name := "g:a", version := "1.0", versionConstraint := "1.0",
           ecosystem := Ecosystem.maven, direct := true, dev := false },
         { name := "g:a", version := "1.0", versionConstraint := "1.0",
           ecosystem := Ecosystem.maven, direct := true, dev := false }] ∧
    ¬ (MavenParser.parseProject
        { dependencies := [{ groupId := "g", artifactId := "a", version := "1.0" },
                           { groupId := "g", artifactId := "a", version := "1.0" }] }).Pairwise
      (fun a b => ¬(a.name = b.name ∧ a.version = b.version)) := by
  constructor
  · decide
  · intro hpw
    have h := (by decide :
      MavenParser.parseProject
        { dependencies := [{ groupId := "g", artifactId := "a", version := "1.0" },
                           { groupId := "g", artifactId := "a", version := "1.0" }] }
        = [{ name := "g:a", version := "1.0", versionConstraint := "1.0",
             ecosystem := Ecosystem.maven, direct := true, dev := false },
           { name := "g:a", version := "1.0", versionConstraint := "1.0",
             ecosystem := Ecosystem.maven, direct := true, dev := false }])
    rw [h] at hpw
    rcases List.pairwise_cons.mp hpw with ⟨hfst, _⟩
    exact hfst _ (List.mem_singleton.mpr rfl) ⟨rfl, rfl⟩

/-- The npm Update loop body leaves the root entry unchanged. -/
theorem updateLockEntry_root (updates : List (String × String))
    (pe : String × PackageLockEntry) (h1 : pe.1 = "") :
    updateLockEntry updates pe = pe := by
  simp [updateLockEntry, h1]

/-- The npm Update loop body leaves an entry unchanged when its extracted
name is not a key of the updates map. -/
theorem updateLockEntry_unmatched {updates : List (String × String)}
    {pe : String × PackageLockEntry}
    (hg : goMapGet updates (extractPackageName pe.1) = none) :
    updateLockEntry updates pe = pe := by
  by_cases h1 : pe.1 = ""
  · simp [updateLockEntry, h1]
  · simp [updateLockEntry, h1, hg]

/-- The npm Update loop body on a matched non-root entry: the version
becomes the requested one, the resolved URL gets the first old-version
occurrence replaced (when both are non-empty), and every other field is
copied. -/
theorem updateLockEntry_matched {updates : List (String × String)}
    {pe : String × PackageLockEntry} {v' : String} (h1 : pe.1 ≠ "")
    (hg : goMapGet updates (extractPackageName pe.1) = some v') :
    updateLockEntry updates pe =
      (pe.1,
        { version := v'
          resolved :=
            if pe.2.resolved ≠ "" ∧ pe.2.version ≠ "" then
              replaceFirst pe.2.resolved pe.2.version v'
            else pe.2.resolved
          integrity := pe.2.integrity
          dev := pe.2.dev
          dependencies := pe.2.dependencies
          devDependencies := pe.2.devDependencies }) := by
  simp only [updateLockEntry, if_neg h1, hg]
  by_cases h2 : pe.2.resolved ≠ "" ∧ pe.2.version ≠ ""
  · simp [h2]
  · simp [h2]

/-- C5: npm Update is a frame-preserving rewrite of the lock structure. The
top-level fields (name, version, lockfileVersion and the legacy
dependencies section) are untouched; every lock entry keeps its path, and
entry-wise: the root entry and entries whose extracted name is not a key of
the update map are unchanged, while a matched entry changes exactly its
version (to the requested one) and its resolved URL (first occurrence of
the old version token replaced by the new one, only when both are
non-empty) — integrity, dev flag and dependency maps are preserved. The
whole updated structure is what Update re-serializes. -/
theorem npm_update_frame (lf : PackageLockJSON) (updates : List (String × String)) :
    (NpmParser.updateLock lf updates).name = lf.name ∧
    (NpmParser.updateLock lf updates).version = lf.version ∧
    (NpmParser.updateLock lf updates).lockfileVersion = lf.lockfileVersion ∧
    (NpmParser.updateLock lf updates).dependencies = lf.dependencies ∧
    List.Forall₂
      (fun (a b : String × PackageLockEntry) =>
        b.1 = a.1 ∧
        (a.1 = "" → b.2 = a.2) ∧
        (goMapGet updates (extractPackageName a.1) = none → b.2 = a.2) ∧
        (∀ v', a.1 ≠ "" → goMapGet updates (extractPackageName a.1) = some v' →
          b.2.version = v' ∧
          b.2.resolved =
            (if a.2.resolved ≠ "" ∧ a.2.version ≠ "" then
              replaceFirst a.2.resolved a.2.version v'
            else a.2.resolved) ∧
          b.2.integrity = a.2.integrity ∧
          b.2.dev = a.2.dev ∧
          b.2.dependencies = a.2.dependencies ∧
          b.2.devDependencies = a.2.devDependencies))
      lf.packages (NpmParser.updateLock lf updates).packages := by
  refine ⟨rfl, rfl, rfl, rfl, ?_⟩
  simp only [NpmParser.updateLock]
  rw [List.forall₂_map_right_iff]
  refine List.forall₂_same.mpr ?_
  intro pe _
  by_cases h1 : pe.1 = ""
  · rw [updateLockEntry_root updates pe h1]
    exact ⟨rfl, fun _ => rfl, fun _ => rfl, fun v' hne _ => absurd h1 hne⟩
  · cases hg : goMapGet updates (extractPackageName pe.1) with
    | none =>
      rw [updateLockEntry_unmatched hg]
      refine ⟨rfl, fun _ => rfl, fun _ => rfl, ?_⟩
      intro v' _ hsome
      exact absurd hsome (by simp)
    | some newVersion =>
      rw [updateLockEntry_matched h1 hg]
      refine ⟨rfl, fun h => absurd h h1, fun h => absurd h (by simp), ?_⟩
      intro v' _ hsome
      obtain rfl := Option.some.inj hsome
      exact ⟨rfl, rfl, rfl, rfl, rfl, rfl⟩

/-- The pip apply loop under a mid-sequence failure, for any start index:
when every patch before position k succeeds and the patch at position k
fails, exactly the first k+1 routed calls are made, the loop stops with the
wrapped error, and the failing patch's progress line (with its 1-based
position) is among the printed lines. -/
theorem pipApplyAux_fail (svc : PipSvcBehavior) (useAlias : Bool) (total : Nat) :
    ∀ (ps : List PackagePatch) (i k : Nat) (msg : String) (hk : k < ps.length),
    routedRes svc (ps.get ⟨k, hk⟩) = some msg →
    (∀ j (hj : j < k), routedRes svc (ps.get ⟨j, Nat.lt_trans hj hk⟩) = none) →
    (pipApplyAux svc useAlias total i ps).1 = (ps.take (k + 1)).map routedCall ∧
    (pipApplyAux svc useAlias total i ps).2.2
      = Except.error ("patch failed: " ++ msg) ∧
    pipProgressLine (i + k) total (ps.get ⟨k, hk⟩) useAlias
      ∈ (pipApplyAux svc useAlias total i ps).2.1 := by
  intro ps
  induction ps with
  | nil => intro i k msg hk; exact absurd hk (by simp)
  | cons patch rest ih =>
    intro i k msg hk hfail hbefore
    cases k with
    | zero =>
      have hf : routedRes svc patch = some msg := hfail
      refine ⟨?_, ?_, ?_⟩
      · simp [pipApplyAux, hf, List.take_succ_cons]
      · simp [pipApplyAux, hf]
      · simp [pipApplyAux, hf]
    | succ k' =>
      have h0 : routedRes svc patch = none := hbefore 0 (Nat.succ_pos k')
      have hk' : k' < rest.length := Nat.lt_of_succ_lt_succ hk
      have ihh := ih (i + 1) k' msg hk' hfail
        (fun j hj => hbefore (j + 1) (Nat.succ_lt_succ hj))
      simp only [pipApplyAux, h0]
      refine ⟨?_, ?_, ?_⟩
      · simp only [List.take_succ_cons, List.map_cons]
        rw [← ihh.1]
      · exact ihh.2.1
      · refine List.mem_cons_of_mem _ (List.mem_cons_of_mem _ ?_)
        have := ihh.2.2
        rwa [Nat.add_right_comm i 1 k'] at this

/-- C8: in a pip apply run of N patches, when every patch before position k
(0-based) succeeds and patch k fails, exactly patches 0..k are attempted in
order (so the k earlier ones were applied and are not rolled back, and
nothing after k is attempted), the run terminates with the wrapped error,
and the printed output contains the failing patch's positional line
"[k+1/N] Patching <name> ...". -/
theorem pip_sequential_apply_failure (svc : PipSvcBehavior) (useAlias : Bool)
    (patches : List PackagePatch) (k : Nat) (msg : String)
    (hk : k < patches.length)
    (hfail : routedRes svc (patches.get ⟨k, hk⟩) = some msg)
    (hbefore : ∀ j (hj : j < k),
      routedRes svc (patches.get ⟨j, Nat.lt_trans hj hk⟩) = none) :
    (pipApplyPatches svc useAlias patches).1
      = (patches.take (k + 1)).map routedCall ∧
    (pipApplyPatches svc useAlias patches).2.2
      = Except.error ("patch failed: " ++ msg) ∧
    pipProgressLine k patches.length (patches.get ⟨k, hk⟩) useAlias
      ∈ (pipApplyPatches svc useAlias patches).2.1 := by
  have h := pipApplyAux_fail svc useAlias patches.length patches 0 k msg hk
    hfail hbefore
  simpa [pipApplyPatches] using h

/-- Witness for `pip_sequential_apply_failure`: a concrete three-patch run
whose second patch fails makes exactly two calls, reports the wrapped
error, and prints the "[2/3]" line naming the failing package. -/
theorem pip_sequential_apply_failure_witness :
    (pipApplyPatches
        { applyPatchRes := fun p => if p.packageName = "flask" then some "boom" else none
          applyPatchForPipRes := fun _ => none } true
        [{ packageName := "django", version := "4.0.0",
           patch := { name := "django", version := "4.0.1" },
           patchAlias := { name := "rootio-django", version := "4.0.1" },
           cveIds := [] },
         { packageName := "flask", version := "2.0.0",
           patch := { name := "flask", version := "2.0.1" },
           patchAlias := { name := "rootio-flask", version := "2.0.1" },
           cveIds := [] },
         { packageName := "requests", version := "2.25.0",
           patch := { name := "requests", version := "2.25.1" },
           patchAlias := { name := "rootio-requests", version := "2.25.1" },
           cveIds := [] }]).1
      = [PipCall.applyPatch "django", PipCall.applyPatch "flask"] ∧
    (pipApplyPatches
        { applyPatchRes := fun p => if p.packageName = "flask" then some "boom" else none
          applyPatchForPipRes := fun _ => none } true
        [{ packageName := "django", version := "4.0.0",
           patch := { name := "django", version := "4.0.1" },
           patchAlias := { name := "rootio-django", version := "4.0.1" },
           cveIds := [] },
         { packageName := "flask", version := "2.0.0",
           patch := { name := "flask", version := "2.0.1" },
           patchAlias := { name := "rootio-flask", version := "2.0.1" },
           cveIds := [] },
         { packageName := "requests", version := "2.25.0",
           patch := { name := "requests", version := "2.25.1" },
           patchAlias := { name := "rootio-requests", version := "2.25.1" },
           cveIds := [] }]).2.2
      = Except.error "patch failed: boom" ∧
    "[2/3] Patching flask (2.0.0 → 2.0.1)..."
      ∈ (pipApplyPatches
        { applyPatchRes := fun p => if p.packageName = "flask" then some "boom" else none
          applyPatchForPipRes := fun _ => none } true
        [{ packageName := "django", version := "4.0.0",
           patch := { name := "django", version := "4.0.1" },
           patchAlias := { name := "rootio-django", version := "4.0.1" },
           cveIds := [] },
         { packageName := "flask", version := "2.0.0",
           patch := { name := "flask", version := "2.0.1" },
           patchAlias := { name := "rootio-flask", version := "2.0.1" },
           cveIds := [] },
         { packageName := "requests", version := "2.25.0",
           patch := { name := "requests", version := "2.25.1" },
           patchAlias := { name := "rootio-requests", version := "2.25.1" },
           cveIds := [] }]).2.1 := by
  have h := pip_sequential_apply_failure
    { applyPatchRes := fun p => if p.packageName = "flask" then some "boom" else none
      applyPatchForPipRes := fun _ => none } true
    [{ packageName := "django", version := "4.0.0",
       patch := { name := "django", version := "4.0.1" },
       patchAlias := { name := "rootio-django", version := "4.0.1" },
       cveIds := [] },
     { packageName := "flask", version := "2.0.0",
       patch := { name := "flask", version := "2.0.1" },
       patchAlias := { name := "rootio-flask", version := "2.0.1" },
       cveIds := [] },
     { packageName := "requests", version := "2.25.0",
       patch := { name := "requests", version := "2.25.1" },
       patchAlias := { name := "rootio-requests", version := "2.25.1" },
       cveIds := [] }] 1 "boom" (by decide) (by decide)
    (fun j hj => by
      obtain rfl : j = 0 := by omega
      rfl)
  refine ⟨?_, ?_, ?_⟩
  · rw [h.1]; decide
  · have hmsg : ("patch failed: " ++ "boom" : String) = "patch failed: boom" := rfl
    rw [← hmsg]
    exact h.2.1
  · decide

/-- Every call emitted by the pip apply loop is the routed call of one of
the patches handed to it. -/
theorem pipApplyAux_calls_routed (svc : PipSvcBehavior) (useAlias : Bool)
    (total : Nat) :
    ∀ (ps : List PackagePatch) (i : Nat) (c : PipCall),
    c ∈ (pipApplyAux svc useAlias total i ps).1 →
    ∃ patch ∈ ps, c = routedCall patch := by
  intro ps
  induction ps with
  | nil => intro i c hc; simp [pipApplyAux] at hc
  | cons patch rest ih =>
    intro i c hc
    simp only [pipApplyAux] at hc
    cases hres : routedRes svc patch with
    | some msg =>
      rw [hres] at hc
      simp only [List.mem_singleton] at hc
      exact ⟨patch, List.mem_cons_self _ _, hc⟩
    | none =>
      rw [hres] at hc
      rcases List.mem_cons.mp hc with hc | hc
      · exact ⟨patch, List.mem_cons_self _ _, hc⟩
      · obtain ⟨q, hq, hcq⟩ := ih (i + 1) c hc
        exact ⟨q, List.mem_cons_of_mem _ hq, hcq⟩

/-- C9: in a pip apply run, routing is decided solely by the
case-insensitive comparison of the patch's packageName with "pip" (the
useAlias flag plays no role): every ApplyPatchForPip call made carries a
name that case-insensitively equals "pip", and every ApplyPatch call made
carries a name that does not. -/
theorem pip_package_routes_to_upgrade_path (svc : PipSvcBehavior)
    (useAlias : Bool) (patches : List PackagePatch) :
    ∀ c ∈ (pipApplyPatches svc useAlias patches).1,
      (∀ n, c = PipCall.applyPatchForPip n → eqFold n "pip" = true) ∧
      (∀ n, c = PipCall.applyPatch n → eqFold n "pip" = false) := by
  intro c hc
  obtain ⟨patch, _, rfl⟩ :=
    pipApplyAux_calls_routed svc useAlias patches.length patches 0 c hc
  by_cases hp : eqFold patch.packageName "pip" = true
  · constructor
    · intro n hn
      rw [routedCall, if_pos hp] at hn
      obtain rfl := PipCall.applyPatchForPip.inj hn
      exact hp
    · intro n hn
      rw [routedCall, if_pos hp] at hn
      exact absurd hn (by simp)
  · have hp' : eqFold patch.packageName "pip" = false := by
      simpa using hp
    constructor
    · intro n hn
      rw [routedCall, if_neg (by simp [hp'])] at hn
      exact absurd hn (by simp)
    · intro n hn
      rw [routedCall, if_neg (by simp [hp'])] at hn
      obtain rfl := PipCall.applyPatch.inj hn
      exact hp'

/-- Witness for `pip_package_routes_to_upgrade_path`: in a concrete run
containing a patch named "PIP" (useAlias = false), the call made for it is
the upgrade-style one, and its name case-insensitively equals "pip". -/
theorem pip_package_routes_to_upgrade_path_witness :
    eqFold "PIP" "pip" = true :=
  ((pip_package_routes_to_upgrade_path
      { applyPatchRes := fun _ => none, applyPatchForPipRes := fun _ => none }
      false
      [{ packageName := "PIP", version := "21.0.0",
         patch := { name := "pip", version := "21.3.0" },
         patchAlias := { name := "pip", version := "21.3.0" },
         cveIds := [] }])
    (PipCall.applyPatchForPip "PIP") (by decide)).1 "PIP" rfl

/-- Looking up the key just set yields the new value. -/
theorem goMapGet_goMapSet_self {α : Type} (m : List (String × α)) (k : String)
    (v : α) : goMapGet (goMapSet m k v) k = some v := by
  induction m with
  | nil => simp [goMapSet, goMapGet]
  | cons kv rest ih =>
    by_cases h : kv.1 = k
    · simp [goMapSet, goMapGet, h]
    · simp only [goMapSet, goMapGet, h, if_neg h]
      exact ih

/-- Setting one key leaves lookups of other keys unchanged. -/
theorem goMapGet_goMapSet_ne {α : Type} (m : List (String × α)) (k k' : String)
    (v : α) (h : k ≠ k') : goMapGet (goMapSet m k v) k' = goMapGet m k' := by
  induction m with
  | nil => simp [goMapSet, goMapGet, h]
  | cons kv rest ih =>
    by_cases hkv : kv.1 = k
    · simp [goMapSet, goMapGet, hkv, h]
    · simp only [goMapSet, if_neg hkv, goMapGet]
      by_cases hkv' : kv.1 = k'
      · simp [hkv']
      · simp only [if_neg hkv']
        exact ih

/-- The last patch in the list carrying a given package name (Go map
assignment lets later patches overwrite earlier same-named ones). -/
def lastPatchNamed : List PackagePatch → String → Option PackagePatch
  | [], _ => none
  | p :: rest, name =>
    match lastPatchNamed rest name with
    | some q => some q
    | none => if p.packageName = name then some p else none

/-- Lookup in the overrides map built by a fold of Go map assignments: the
last same-named patch wins, otherwise the accumulator decides. -/
theorem goMapGet_foldl_overrides (patches : List PackagePatch) :
    ∀ (m : List (String × String)) (name : String),
    goMapGet
      (patches.foldl
        (fun acc patch =>
          goMapSet acc patch.packageName
            ("npm:" ++ patch.patchAlias.name ++ "@" ++ patch.patchAlias.version))
        m) name
      = match lastPatchNamed patches name with
        | some q => some ("npm:" ++ q.patchAlias.name ++ "@" ++ q.patchAlias.version)
        | none => goMapGet m name := by
  induction patches with
  | nil => intro m name; rfl
  | cons p rest ih =>
    intro m name
    simp only [List.foldl_cons, lastPatchNamed]
    rw [ih]
    cases lastPatchNamed rest name with
    | some q => rfl
    | none =>
      by_cases h : p.packageName = name
      · subst h
        simp [goMapGet_goMapSet_self]
      · simp only [if_neg h]
        exact goMapGet_goMapSet_ne _ _ _ _ h

/-- A last-named patch is a member of the list and carries the name. -/
theorem lastPatchNamed_mem {patches : List PackagePatch} {name : String}
    {q : PackagePatch} (h : lastPatchNamed patches name = some q) :
    q ∈ patches ∧ q.packageName = name := by
  induction patches with
  | nil => simp [lastPatchNamed] at h
  | cons p rest ih =>
    simp only [lastPatchNamed] at h
    cases hr : lastPatchNamed rest name with
    | some q' =>
      rw [hr] at h
      obtain rfl := Option.some.inj h
      obtain ⟨hm, hn⟩ := ih hr
      exact ⟨List.mem_cons_of_mem _ hm, hn⟩
    | none =>
      rw [hr] at h
      by_cases hp : p.packageName = name
      · rw [if_pos hp] at h
        obtain rfl := Option.some.inj h
        exact ⟨List.mem_cons_self _ _, hp⟩
      · rw [if_neg hp] at h
        exact absurd h (by simp)

/-- Every name appearing among the patches has a last-named patch. -/
theorem lastPatchNamed_isSome {patches : List PackagePatch} {name : String}
    (h : name ∈ patches.map PackagePatch.packageName) :
    (lastPatchNamed patches name).isSome := by
  induction patches with
  | nil => simp at h
  | cons p rest ih =>
    simp only [lastPatchNamed]
    cases hr : lastPatchNamed rest name with
    | some q => simp
    | none =>
      simp only [List.map_cons, List.mem_cons] at h
      rcases h with h | h
      · simp [h.symm]
      · have := ih h
        rw [hr] at this
        simp at this

/-- C10: across every input (any dry-run flag, any injected outcome), the
npm App's effect trace contains no parser Update call and no parser
Validate call, and every file write it performs targets package.json with
content equal to the decoded package.json plus the inserted override field
built from the analysis response's patches; moreover the overrides map
sends each patched package name to npm:<aliasName>@<aliasVersion> (of the
last patch carrying that name). The parsed lock file is never written. -/
theorem npm_app_writes_only_package_json (pm path : String)
    (lockExists : Bool) (parseRes : Except String (List PackageInfo))
    (api : List Package → Except String AnalyzeResponse) (dryRun : Bool)
    (pkgJsonExists : Bool) (readRes : Except String (List (String × Json))) :
    (∀ e ∈ (npmRun pm path lockExists parseRes api dryRun pkgJsonExists readRes).1,
      (∀ q, e ≠ NpmEffect.updateCall q) ∧
      (∀ c, e ≠ NpmEffect.validateCall c) ∧
      (∀ q c, e = NpmEffect.writeJson q c →
        q = "package.json" ∧
        ∃ m resp pkgs, readRes = Except.ok m ∧ parseRes = Except.ok pkgs ∧
          api (toSdkPackages pkgs) = Except.ok resp ∧
          c = Json.obj (npmInsertOverrides pm m (buildOverrides resp.patches)))) ∧
    (∀ (patches : List PackagePatch) name,
      name ∈ patches.map PackagePatch.packageName →
      ∃ patch ∈ patches, patch.packageName = name ∧
        goMapGet (buildOverrides patches) name
          = some ("npm:" ++ patch.patchAlias.name ++ "@" ++ patch.patchAlias.version)) := by
  constructor
  · intro e he
    have hparse : (∀ q, NpmEffect.parseCall path ≠ NpmEffect.updateCall q) ∧
        (∀ c, NpmEffect.parseCall path ≠ NpmEffect.validateCall c) ∧
        (∀ q c, NpmEffect.parseCall path = NpmEffect.writeJson q c →
          q = "package.json" ∧
          ∃ m resp pkgs, readRes = Except.ok m ∧ parseRes = Except.ok pkgs ∧
            api (toSdkPackages pkgs) = Except.ok resp ∧
            c = Json.obj (npmInsertOverrides pm m (buildOverrides resp.patches))) := by
      refine ⟨by simp, by simp, fun q c h => absurd h (by simp)⟩
    have hreport : (∀ q, NpmEffect.report ≠ NpmEffect.updateCall q) ∧
        (∀ c, NpmEffect.report ≠ NpmEffect.validateCall c) ∧
        (∀ q c, NpmEffect.report = NpmEffect.writeJson q c →
          q = "package.json" ∧
          ∃ m resp pkgs, readRes = Except.ok m ∧ parseRes = Except.ok pkgs ∧
            api (toSdkPackages pkgs) = Except.ok resp ∧
            c = Json.obj (npmInsertOverrides pm m (buildOverrides resp.patches))) := by
      refine ⟨by simp, by simp, fun q c h => absurd h (by simp)⟩
    cases lockExists with
    | false => simp [npmRun] at he
    | true =>
      cases parseRes with
      | error err => simp [npmRun] at he; subst he; exact hparse
      | ok packages =>
        by_cases h0 : packages.length = 0
        · simp [npmRun, h0] at he; subst he; exact hparse
        · cases happ : api (toSdkPackages packages) with
          | error err =>
            simp [npmRun, h0, happ] at he; subst he; exact hparse
          | ok response =>
            by_cases hp0 : response.patches.length = 0
            · simp [npmRun, h0, happ, hp0] at he; subst he; exact hparse
            · cases dryRun with
              | true =>
                simp [npmRun, h0, happ, hp0] at he
                rcases he with he | he
                · subst he; exact hparse
                · subst he; exact hreport
              | false =>
                cases pkgJsonExists with
                | false =>
                  simp [npmRun, h0, happ, hp0, npmApplyPatches,
                    npmUpdatePackageJSON] at he
                  subst he; exact hparse
                | true =>
                  cases readRes with
                  | error err =>
                    simp [npmRun, h0, happ, hp0, npmApplyPatches,
                      npmUpdatePackageJSON] at he
                    subst he; exact hparse
                  | ok pkgJSON =>
                    simp [npmRun, h0, happ, hp0, npmApplyPatches,
                      npmUpdatePackageJSON] at he
                    rcases he with he | he
                    · subst he; exact hparse
                    · subst he
                      refine ⟨by simp, by simp, ?_⟩
                      intro q c h
                      obtain ⟨hq, hc⟩ := NpmEffect.writeJson.inj h
                      subst hq; subst hc
                      exact ⟨rfl, pkgJSON, response, packages, rfl, rfl, happ, rfl⟩
  · intro patches name hname
    have hsome := lastPatchNamed_isSome hname
    cases hq : lastPatchNamed patches name with
    | none => rw [hq] at hsome; simp at hsome
    | some q =>
      obtain ⟨hmem, hqn⟩ := lastPatchNamed_mem hq
      refine ⟨q, hmem, hqn, ?_⟩
      have hfold := goMapGet_foldl_overrides patches [] name
      rw [hq] at hfold
      simp only [buildOverrides]
      rw [hfold]

/-- Witness for `npm_app_writes_only_package_json`: on a concrete non-dry
npm run with one lodash patch, the single write targets package.json with
the overrides field mapping lodash to its alias. -/
theorem npm_app_writes_only_package_json_witness :
    ("npm:" ++ "@rootio/lodash" ++ "@" ++ "4.17.21" : String)
      = "npm:@rootio/lodash@4.17.21" ∧
    goMapGet
      (buildOverrides
        [{ packageName := "lodash", version := "4.17.20",
           patch := { name := "lodash", version := "4.17.21" },
           patchAlias := { name := "@rootio/lodash", version := "4.17.21" },
           cveIds := [] }]) "lodash"
      = some "npm:@rootio/lodash@4.17.21" := by
  refine ⟨rfl, ?_⟩
  obtain ⟨patch, hmem, hname, hget⟩ :=
    (npm_app_writes_only_package_json "npm" "package-lock.json" true
      (Except.ok []) (fun _ => Except.ok { patches := [], skipped := [] }) true
      true (Except.ok [])).2
      [{ packageName := "lodash", version := "4.17.20",
         patch := { name := "lodash", version := "4.17.21" },
         patchAlias := { name := "@rootio/lodash", version := "4.17.21" },
         cveIds := [] }] "lodash" (by decide)
  obtain rfl : patch =
      { packageName := "lodash", version := "4.17.20",
        patch := { name := "lodash", version := "4.17.21" },
        patchAlias := { name := "@rootio/lodash", version := "4.17.21" },
        cveIds := [] } := by
    simpa using hmem
  exact hget

/-- Splitting at the single '@' of a character list is unambiguous when the
suffixes are '@'-free. -/
theorem append_char_inj :
    ∀ (a₁ a₂ : List Char) {r₁ r₂ : List Char}, '@' ∉ r₁ → '@' ∉ r₂ →
    a₁ ++ '@' :: r₁ = a₂ ++ '@' :: r₂ → a₁ = a₂ ∧ r₁ = r₂ := by
  intro a₁
  induction a₁ with
  | nil =>
    intro a₂ r₁ r₂ h₁ h₂ h
    cases a₂ with
    | nil =>
      simp only [List.nil_append, List.cons.injEq] at h
      exact ⟨rfl, h.2⟩
    | cons c cs =>
      simp only [List.nil_append, List.cons_append, List.cons.injEq] at h
      exfalso
      apply h₁
      rw [h.2]
      exact List.mem_append_right _ (List.mem_cons_self _ _)
  | cons c cs ih =>
    intro a₂ r₁ r₂ h₁ h₂ h
    cases a₂ with
    | nil =>
      simp only [List.cons_append, List.nil_append, List.cons.injEq] at h
      exfalso
      apply h₂
      rw [← h.2]
      exact List.mem_append_right _ (List.mem_cons_self _ _)
    | cons d ds =>
      simp only [List.cons_append, List.cons.injEq] at h
      obtain ⟨ha, hr⟩ := ih ds h₁ h₂ h.2
      exact ⟨by rw [h.1, ha], hr⟩

/-- The character data of a dedup key. -/
theorem lockKey_data (n v : String) :
    (lockKey n v).data = n.data ++ '@' :: v.data := by
  have hat : ("@" : String).data = ['@'] := rfl
  simp [lockKey, String.data_append, hat]

/-- The dedup key name@version determines name and version when the
versions contain no '@'. -/
theorem lockKey_inj {n₁ v₁ n₂ v₂ : String} (h₁ : '@' ∉ v₁.data)
    (h₂ : '@' ∉ v₂.data) (h : lockKey n₁ v₁ = lockKey n₂ v₂) :
    n₁ = n₂ ∧ v₁ = v₂ := by
  have hd := congrArg String.data h
  rw [lockKey_data, lockKey_data] at hd
  obtain ⟨ha, hr⟩ := append_char_inj _ _ h₁ h₂ hd
  exact ⟨String.ext ha, String.ext hr⟩

/-- A successful map lookup exhibits a binding. -/
theorem goMapGet_mem {α : Type} {m : List (String × α)} {k : String} {v : α}
    (h : goMapGet m k = some v) : (k, v) ∈ m := by
  induction m with
  | nil => simp [goMapGet] at h
  | cons kv rest ih =>
    rw [goMapGet] at h
    by_cases hk : kv.1 = k
    · rw [if_pos hk] at h
      obtain rfl := Option.some.inj h
      subst hk
      exact List.mem_cons_self _ _
    · rw [if_neg hk] at h
      exact List.mem_cons_of_mem _ (ih h)

/-- The npm Update loop body never changes an entry's path. -/
theorem updateLockEntry_fst (updates : List (String × String))
    (pe : String × PackageLockEntry) :
    (updateLockEntry updates pe).1 = pe.1 := by
  by_cases h1 : pe.1 = ""
  · rw [updateLockEntry_root updates pe h1]
  · cases hg : goMapGet updates (extractPackageName pe.1) with
    | none => rw [updateLockEntry_unmatched hg]
    | some v' => rw [updateLockEntry_matched h1 hg]

/-- The version of an updated non-root entry: the requested new version
when the extracted name is a key of the updates map, the old version
otherwise. -/
theorem updateLockEntry_version (updates : List (String × String))
    {pe : String × PackageLockEntry} (h1 : pe.1 ≠ "") :
    (updateLockEntry updates pe).2.version
      = match goMapGet updates (extractPackageName pe.1) with
        | some v' => v'
        | none => pe.2.version := by
  cases hg : goMapGet updates (extractPackageName pe.1) with
  | none => rw [updateLockEntry_unmatched hg]
  | some v' => rw [updateLockEntry_matched h1 hg]

/-- One parse-loop step that skips the head entry. -/
theorem parsePackagesGo_cons_skip {dd ddd : List String}
    {qe : String × PackageLockEntry} {rest : List (String × PackageLockEntry)}
    {seen : List String}
    (h : qe.1 = "" ∨ extractPackageName qe.1 = "" ∨ qe.2.version = "" ∨
      seen.contains (lockKey (extractPackageName qe.1) qe.2.version) = true) :
    parsePackagesGo dd ddd (qe :: rest) seen = parsePackagesGo dd ddd rest seen := by
  obtain ⟨qp, qd⟩ := qe
  simp only [parsePackagesGo]
  by_cases hq1 : qp = ""
  · simp [hq1]
  · simp only [if_neg hq1]
    by_cases hq2 : extractPackageName qp = ""
    · simp [hq2]
    · simp only [if_neg hq2]
      by_cases hq3 : qd.version = ""
      · simp [hq3]
      · simp only [if_neg hq3]
        have hc : seen.contains (lockKey (extractPackageName qp) qd.version)
            = true := by
          rcases h with h | h | h | h
          · exact absurd h hq1
          · exact absurd h hq2
          · exact absurd h hq3
          · exact h
        rw [if_pos hc]

/-- One parse-loop step that emits the head entry. -/
theorem parsePackagesGo_cons_emit {dd ddd : List String}
    {qe : String × PackageLockEntry} {rest : List (String × PackageLockEntry)}
    {seen : List String} (h1 : qe.1 ≠ "") (h2 : extractPackageName qe.1 ≠ "")
    (h3 : qe.2.version ≠ "")
    (h4 : seen.contains (lockKey (extractPackageName qe.1) qe.2.version) = false) :
    parsePackagesGo dd ddd (qe :: rest) seen =
      { name := extractPackageName qe.1
        version := qe.2.version
        versionConstraint := qe.2.version
        ecosystem := Ecosystem.npm
        direct := dd.contains (extractPackageName qe.1)
          || ddd.contains (extractPackageName qe.1)
        dev := ddd.contains (extractPackageName qe.1) || qe.2.dev } ::
      parsePackagesGo dd ddd rest
        (lockKey (extractPackageName qe.1) qe.2.version :: seen) := by
  obtain ⟨qp, qd⟩ := qe
  simp only at h1 h2 h3 h4
  simp only [parsePackagesGo, if_neg h1, if_neg h2, if_neg h3]
  have hnot : ¬(seen.contains (lockKey (extractPackageName qp) qd.version)
      = true) := by
    rw [h4]
    simp
  rw [if_neg hnot]

/-- Every entry emitted by the npm parse loop comes from a candidate lock
entry: a non-root path whose extracted name and version are the emitted
ones. -/
theorem mem_parsePackagesGo_exists {dd ddd : List String} {pi : PackageInfo} :
    ∀ {pkgs : List (String × PackageLockEntry)} {seen : List String},
    pi ∈ parsePackagesGo dd ddd pkgs seen →
    ∃ pe ∈ pkgs, pe.1 ≠ "" ∧ extractPackageName pe.1 = pi.name ∧
      pe.2.version = pi.version := by
  intro pkgs
  induction pkgs with
  | nil => intro seen h; simp [parsePackagesGo] at h
  | cons qe rest ih =>
    intro seen h
    by_cases h1 : qe.1 = ""
    · rw [parsePackagesGo_cons_skip (Or.inl h1)] at h
      obtain ⟨pe, hpe, hh⟩ := ih h
      exact ⟨pe, List.mem_cons_of_mem _ hpe, hh⟩
    · by_cases h2 : extractPackageName qe.1 = ""
      · rw [parsePackagesGo_cons_skip (Or.inr (Or.inl h2))] at h
        obtain ⟨pe, hpe, hh⟩ := ih h
        exact ⟨pe, List.mem_cons_of_mem _ hpe, hh⟩
      · by_cases h3 : qe.2.version = ""
        · rw [parsePackagesGo_cons_skip (Or.inr (Or.inr (Or.inl h3)))] at h
          obtain ⟨pe, hpe, hh⟩ := ih h
          exact ⟨pe, List.mem_cons_of_mem _ hpe, hh⟩
        · by_cases h4 : seen.contains
            (lockKey (extractPackageName qe.1) qe.2.version) = true
          · rw [parsePackagesGo_cons_skip (Or.inr (Or.inr (Or.inr h4)))] at h
            obtain ⟨pe, hpe, hh⟩ := ih h
            exact ⟨pe, List.mem_cons_of_mem _ hpe, hh⟩
          · have h4' : seen.contains
                (lockKey (extractPackageName qe.1) qe.2.version) = false := by
              simpa using h4
            rw [parsePackagesGo_cons_emit h1 h2 h3 h4'] at h
            rcases List.mem_cons.mp h with hpi | hpi
            · subst hpi
              exact ⟨qe, List.mem_cons_self _ _, h1, rfl, rfl⟩
            · obtain ⟨pe, hpe, hh⟩ := ih hpi
              exact ⟨pe, List.mem_cons_of_mem _ hpe, hh⟩

/-- Completeness of the npm parse loop under '@'-free candidate versions:
every candidate lock entry whose key is not yet seen gives rise to an
emitted entry with its extracted name and version. -/
theorem parsePackagesGo_emits {dd ddd : List String} :
    ∀ {pkgs : List (String × PackageLockEntry)} {seen : List String}
      {pe : String × PackageLockEntry},
    (∀ qe ∈ pkgs, qe.1 ≠ "" → extractPackageName qe.1 ≠ "" →
      qe.2.version ≠ "" → '@' ∉ qe.2.version.data) →
    pe ∈ pkgs → pe.1 ≠ "" → extractPackageName pe.1 ≠ "" →
    pe.2.version ≠ "" →
    seen.contains (lockKey (extractPackageName pe.1) pe.2.version) = false →
    ∃ pi ∈ parsePackagesGo dd ddd pkgs seen,
      pi.name = extractPackageName pe.1 ∧ pi.version = pe.2.version := by
  intro pkgs
  induction pkgs with
  | nil => intro seen pe _ hmem; simp at hmem
  | cons qe rest ih =>
    intro seen pe hv hmem h1 h2 h3 hseen
    have hvrest : ∀ r ∈ rest, r.1 ≠ "" → extractPackageName r.1 ≠ "" →
        r.2.version ≠ "" → '@' ∉ r.2.version.data :=
      fun r hr => hv r (List.mem_cons_of_mem _ hr)
    by_cases hq1 : qe.1 = ""
    · have hpe : pe ∈ rest := by
        rcases List.mem_cons.mp hmem with h | h
        · subst h; exact absurd hq1 h1
        · exact h
      rw [parsePackagesGo_cons_skip (Or.inl hq1)]
      exact ih hvrest hpe h1 h2 h3 hseen
    · by_cases hq2 : extractPackageName qe.1 = ""
      · have hpe : pe ∈ rest := by
          rcases List.mem_cons.mp hmem with h | h
          · subst h; exact absurd hq2 h2
          · exact h
        rw [parsePackagesGo_cons_skip (Or.inr (Or.inl hq2))]
        exact ih hvrest hpe h1 h2 h3 hseen
      · by_cases hq3 : qe.2.version = ""
        · have hpe : pe ∈ rest := by
            rcases List.mem_cons.mp hmem with h | h
            · subst h; exact absurd hq3 h3
            · exact h
          rw [parsePackagesGo_cons_skip (Or.inr (Or.inr (Or.inl hq3)))]
          exact ih hvrest hpe h1 h2 h3 hseen
        · by_cases hq4 : seen.contains
            (lockKey (extractPackageName qe.1) qe.2.version) = true
          · have hpe : pe ∈ rest := by
              rcases List.mem_cons.mp hmem with h | h
              · subst h; rw [hq4] at hseen; exact absurd hseen (by simp)
              · exact h
            rw [parsePackagesGo_cons_skip (Or.inr (Or.inr (Or.inr hq4)))]
            exact ih hvrest hpe h1 h2 h3 hseen
          · have hq4' : seen.contains
                (lockKey (extractPackageName qe.1) qe.2.version) = false := by
              simpa using hq4
            rw [parsePackagesGo_cons_emit hq1 hq2 hq3 hq4']
            by_cases hkey : lockKey (extractPackageName qe.1) qe.2.version
                = lockKey (extractPackageName pe.1) pe.2.version
            · have hqat : '@' ∉ qe.2.version.data :=
                hv qe (List.mem_cons_self _ _) hq1 hq2 hq3
              have hpat : '@' ∉ pe.2.version.data := hv pe hmem h1 h2 h3
              obtain ⟨hn, hvv⟩ := lockKey_inj hqat hpat hkey
              exact ⟨_, List.mem_cons_self _ _, hn, hvv⟩
            · have hpe : pe ∈ rest := by
                rcases List.mem_cons.mp hmem with h | h
                · subst h; exact absurd rfl hkey
                · exact h
              have hseen' : (lockKey (extractPackageName qe.1) qe.2.version
                  :: seen).contains
                  (lockKey (extractPackageName pe.1) pe.2.version) = false := by
                simp only [List.contains_cons, Bool.or_eq_false_iff,
                  beq_eq_false_iff_ne]
                exact ⟨fun h => hkey h.symm, hseen⟩
              obtain ⟨pi, hpi, hh⟩ := ih hvrest hpe h1 h2 h3 hseen'
              exact ⟨pi, List.mem_cons_of_mem _ hpi, hh⟩

/-- Non-emptiness of the fields of any entry npm Parse returns. -/
theorem parseLock_fields {lf : PackageLockJSON} {pi : PackageInfo}
    (h : pi ∈ NpmParser.parseLock lf) : pi.name ≠ "" ∧ pi.version ≠ "" := by
  simp only [NpmParser.parseLock] at h
  exact ⟨(mem_parsePackagesGo h).1, (mem_parsePackagesGo h).2.1⟩

/-- Soundness of npm Parse at the parseLock level: every emitted entry
comes from a candidate lock entry. -/
theorem parseLock_mem_exists {lf : PackageLockJSON} {pi : PackageInfo}
    (h : pi ∈ NpmParser.parseLock lf) :
    ∃ pe ∈ lf.packages, pe.1 ≠ "" ∧ extractPackageName pe.1 = pi.name ∧
      pe.2.version = pi.version := by
  simp only [NpmParser.parseLock] at h
  exact mem_parsePackagesGo_exists h

/-- Completeness of npm Parse at the parseLock level under '@'-free
candidate versions. -/
theorem parseLock_emits {lf : PackageLockJSON} {pe : String × PackageLockEntry}
    (hv : ∀ qe ∈ lf.packages, qe.1 ≠ "" → extractPackageName qe.1 ≠ "" →
      qe.2.version ≠ "" → '@' ∉ qe.2.version.data)
    (hmem : pe ∈ lf.packages) (h1 : pe.1 ≠ "")
    (h2 : extractPackageName pe.1 ≠ "") (h3 : pe.2.version ≠ "") :
    ∃ pi ∈ NpmParser.parseLock lf,
      pi.name = extractPackageName pe.1 ∧ pi.version = pe.2.version := by
  simp only [NpmParser.parseLock]
  exact parsePackagesGo_emits hv hmem h1 h2 h3 rfl

/-- C6 amended: feeding every name emitted by npm Parse into Update with a
distinct new version per name, and then Parse-ing the Update output,
yields exactly the same set of package names, each carrying its assigned
new version — provided the versions in the lock file and the assigned new
versions contain no '@' character and the assigned versions are non-empty
(without that proviso the name@version dedup key is ambiguous and names
can be lost, see the counterexample). -/
theorem npm_parse_update_roundtrip (lf : PackageLockJSON)
    (updates : List (String × String))
    (hdom : ∀ n, (∃ pi ∈ NpmParser.parseLock lf, pi.name = n) ↔
      (goMapGet updates n).isSome = true)
    (hold : ∀ pe ∈ lf.packages, pe.2.version ≠ "" → '@' ∉ pe.2.version.data)
    (hnew : ∀ kv ∈ updates, kv.2 ≠ "" ∧ '@' ∉ kv.2.data)
    (_hdistinct : (updates.map Prod.snd).Nodup) :
    ∀ n v,
      (∃ pi ∈ NpmParser.parseLock (NpmParser.updateLock lf updates),
        pi.name = n ∧ pi.version = v) ↔
      ((∃ pi ∈ NpmParser.parseLock lf, pi.name = n) ∧
        goMapGet updates n = some v) := by
  have hP2 : (NpmParser.updateLock lf updates).packages
      = lf.packages.map (updateLockEntry updates) := rfl
  have hv₂ : ∀ qe' ∈ (NpmParser.updateLock lf updates).packages,
      qe'.1 ≠ "" → extractPackageName qe'.1 ≠ "" → qe'.2.version ≠ "" →
      '@' ∉ qe'.2.version.data := by
    intro qe' hmem' _ _ hver
    rw [hP2] at hmem'
    obtain ⟨qe, hqe, rfl⟩ := List.mem_map.mp hmem'
    by_cases hq1 : qe.1 = ""
    · rw [updateLockEntry_root updates qe hq1] at hver ⊢
      exact hold qe hqe hver
    · cases hg : goMapGet updates (extractPackageName qe.1) with
      | none =>
        rw [updateLockEntry_unmatched hg] at hver ⊢
        exact hold qe hqe hver
      | some v' =>
        rw [updateLockEntry_matched hq1 hg]
        exact (hnew _ (goMapGet_mem hg)).2
  have hold' : ∀ qe ∈ lf.packages, qe.1 ≠ "" → extractPackageName qe.1 ≠ "" →
      qe.2.version ≠ "" → '@' ∉ qe.2.version.data :=
    fun qe hq _ _ h3 => hold qe hq h3
  intro n v
  constructor
  · rintro ⟨pi, hpi, hn, hv⟩
    have hfields := parseLock_fields hpi
    obtain ⟨pe', hpe', hpe1, hpename, hpever⟩ := parseLock_mem_exists hpi
    rw [hP2] at hpe'
    obtain ⟨ppe, hppe, rfl⟩ := List.mem_map.mp hpe'
    have hfst := updateLockEntry_fst updates ppe
    have h1' : ppe.1 ≠ "" := by rw [← hfst]; exact hpe1
    have hnameeq : extractPackageName ppe.1 = n := by
      rw [hfst] at hpename
      rw [hpename, hn]
    cases hg : goMapGet updates (extractPackageName ppe.1) with
    | some v'' =>
      have hver := updateLockEntry_version updates h1'
      rw [hg] at hver
      have hveq : v'' = v := by
        rw [hver] at hpever
        exact (show v'' = pi.version from hpever).trans hv
      rw [hnameeq] at hg
      refine ⟨(hdom n).mpr (by rw [hg]; rfl), ?_⟩
      rw [hg, hveq]
    | none =>
      have hver := updateLockEntry_version updates h1'
      rw [hg] at hver
      have hppever : ppe.2.version = pi.version := by
        rw [hver] at hpever
        exact hpever
      have hextne : extractPackageName ppe.1 ≠ "" := by
        rw [hnameeq, ← hn]
        exact hfields.1
      have hvne : ppe.2.version ≠ "" := by
        rw [hppever]
        exact hfields.2
      obtain ⟨pi₁, hpi₁, hh₁⟩ := parseLock_emits hold' hppe h1' hextne hvne
      have hisSome := (hdom n).mp ⟨pi₁, hpi₁, by rw [hh₁.1, hnameeq]⟩
      rw [hnameeq] at hg
      rw [hg] at hisSome
      exact absurd hisSome (by simp)
  · rintro ⟨⟨pi₁, hpi₁, hn₁⟩, hlook⟩
    have hn_ne : n ≠ "" := by
      rw [← hn₁]
      exact (parseLock_fields hpi₁).1
    obtain ⟨pe, hpe, hpe1, hpen, hpev⟩ := parseLock_mem_exists hpi₁
    have hmem₂ : updateLockEntry updates pe
        ∈ (NpmParser.updateLock lf updates).packages := by
      rw [hP2]
      exact List.mem_map_of_mem _ hpe
    have hfst := updateLockEntry_fst updates pe
    have h1₂ : (updateLockEntry updates pe).1 ≠ "" := by
      rw [hfst]
      exact hpe1
    have hnameeq : extractPackageName pe.1 = n := by rw [hpen, hn₁]
    have hver₂ : (updateLockEntry updates pe).2.version = v := by
      rw [updateLockEntry_version updates hpe1, hnameeq, hlook]
    have hvne : v ≠ "" := (hnew _ (goMapGet_mem hlook)).1
    have hext₂ : extractPackageName (updateLockEntry updates pe).1 = n := by
      rw [hfst, hnameeq]
    obtain ⟨pi₂, hpi₂, hh₂⟩ := parseLock_emits hv₂ hmem₂ h1₂
      (by rw [hext₂]; exact hn_ne) (by rw [hver₂]; exact hvne)
    exact ⟨pi₂, hpi₂, by rw [hh₂.1, hext₂], by rw [hh₂.2, hver₂]⟩

/-- C6 counterexample: with versions containing '@' the round-trip loses a
name, because the dedup key name@version is ambiguous. The lock file holds
packages "a" and "a@b"; the update map assigns every emitted name a
distinct non-equal new version ("b@c" and "c"), yet re-parsing the updated
structure yields only the name "a": both updated entries share the dedup
key "a@b@c", so the second is suppressed. -/
theorem npm_roundtrip_loses_name_with_at_sign :
    (NpmParser.parseLock
      { packages := [("", {}), ("node_modules/a", { version := "1" }),
                     ("node_modules/a@b", { version := "2" })] }).map
      PackageInfo.name = ["a", "a@b"] ∧
    ("b@c" : String) ≠ "c" ∧
    (goMapGet [("a", "b@c"), ("a@b", "c")] "a") = some "b@c" ∧
    (goMapGet [("a", "b@c"), ("a@b", "c")] "a@b") = some "c" ∧
    (NpmParser.parseLock
      (NpmParser.updateLock
        { packages := [("", {}), ("node_modules/a", { version := "1" }),
                       ("node_modules/a@b", { version := "2" })] }
        [("a", "b@c"), ("a@b", "c")])).map PackageInfo.name = ["a"] := by
  refine ⟨by decide, by decide, by decide, by decide, by decide⟩

/-- Witness for `npm_parse_update_roundtrip`: on a concrete one-package
lock file updated from 4.17.20 to 4.17.21, the re-parse emits lodash with
the new version. -/
theorem npm_parse_update_roundtrip_witness :
    ∃ pi ∈ NpmParser.parseLock
      (NpmParser.updateLock
        { packages := [("", { dependencies := [("lodash", "^4.17.20")] }),
                       ("node_modules/lodash",
                        { version := "4.17.20",
                          resolved := "https://registry.npmjs.org/lodash/-/lodash-4.17.20.tgz" })] }
        [("lodash", "4.17.21")]),
      pi.name = "lodash" ∧ pi.version = "4.17.21" := by
  have hparse : NpmParser.parseLock
      { packages := [("", { dependencies := [("lodash", "^4.17.20")] }),
                     ("node_modules/lodash",
                      { version := "4.17.20",
                        resolved := "https://registry.npmjs.org/lodash/-/lodash-4.17.20.tgz" })] }
      = [{ name := "lodash", version := "4.17.20",
           versionConstraint := "4.17.20", ecosystem := Ecosystem.npm,
           direct := true, dev := false }] := by decide
  refine (npm_parse_update_roundtrip _ [("lodash", "4.17.21")] ?_ ?_ ?_ ?_
    "lodash" "4.17.21").mpr
    ⟨⟨{ name := "lodash", version := "4.17.20", versionConstraint := "4.17.20",
        ecosystem := Ecosystem.npm, direct := true, dev := false }, ?_, rfl⟩,
      by decide⟩
  · intro n
    rw [hparse]
    constructor
    · rintro ⟨pi, hpi, hn⟩
      rw [List.mem_singleton] at hpi
      subst hpi
      rw [← hn]
      decide
    · intro hsome
      by_cases h : ("lodash" : String) = n
      · subst h
        exact ⟨_, List.mem_singleton.mpr rfl, rfl⟩
      · exfalso
        rw [show goMapGet [("lodash", "4.17.21")] n = none from by
          simp [goMapGet, h]] at hsome
        simp at hsome
  · intro pe hpe hv
    fin_cases hpe
    · exact absurd rfl hv
    · decide
  · intro kv hkv
    fin_cases hkv
    decide
  · decide
  · rw [hparse]
    exact List.mem_singleton.mpr rfl

end RootioPatcher
